import Mathlib

/-!
Verification development for the steak liquid-staking hub contract
(`contracts/hub/src/execute.rs`).  The contract's operations are embedded
shallowly: machine integers (`Uint128`, `Uint64`, `u64`, `u128`) become `Nat`
(overflow on these types aborts the whole call in the original, and none of the
properties below hinge on wrap-around), fallible operations return
`Except String` carrying the original error strings, and operations that can
panic (out-of-bounds indexing) return a dedicated `RunResult` with a `panic`
constructor.  Persistent storage maps become association lists carried in
explicit state records.

Functions that live in `crate::math` / `crate::helpers` (declared by
`lib.rs` but whose sources are not part of this tree) are modelled from the
specification's description and are marked `Modelled from the spec:` in their
doc comments.
-/

namespace Steak

/-- A delegation of `amount` native units to `validator`, mirroring
`types::Delegation`. -/
structure Delegation where
  validator : String
  amount : Nat
  denom : String
  deriving Repr, DecidableEq

/-- The single pending (accumulating) unbond batch, mirroring
`pfc_steak::hub::PendingBatch`. -/
structure PendingBatch where
  id : Nat
  usteak_to_burn : Nat
  est_unbond_start_time : Nat
  deriving Repr, DecidableEq

/-- A submitted (matured) unbond batch, mirroring `pfc_steak::hub::Batch`. -/
structure Batch where
  id : Nat
  reconciled : Bool
  total_shares : Nat
  amount_unclaimed : Nat
  est_unbond_end_time : Nat
  deriving Repr, DecidableEq

/-- A user's unbonding request for one batch, mirroring
`pfc_steak::hub::UnbondRequest`; keyed by `(id, user)` in storage. -/
structure UnbondRequest where
  id : Nat
  user : String
  shares : Nat
  deriving Repr, DecidableEq

/-- Result of a call that may panic (Rust index out of bounds), fail with a
`StdError::generic_err` message, or succeed. -/
inductive RunResult (α : Type) where
  | panic : RunResult α
  | err : String → RunResult α
  | ok : α → RunResult α
  deriving Repr, DecidableEq

/-! ## Validator roster operations (`add_validator`, `remove_validator`,
`remove_validator_ex`, `pause_validator`, `unpause_validator`) -/

/-- The validator roster: the full whitelist (`state.validators`) and the
active subset (`state.validators_active`). -/
structure Roster where
  validators : List String
  validators_active : List String
  deriving Repr, DecidableEq

/-- Embedding of `execute::add_validator` (owner check elided; `none` is the
"validator is already whitelisted" error).  The whitelist gets the validator
pushed; the active list gets it pushed when absent. -/
def add_validator (r : Roster) (v : String) : Option Roster :=
  if r.validators.contains v then none
  else some
    { validators := r.validators ++ [v]
      validators_active :=
        if r.validators_active.contains v then r.validators_active
        else r.validators_active ++ [v] }

/-- Embedding of `execute::remove_validator` (owner check and the redelegation
messages elided; `none` is the "validator is not already whitelisted" error).
The whitelist drops the validator via `retain`; the active list is then
updated by the literal block of the source, which pushes the validator when it
is absent and keeps it when present. -/
def remove_validator (r : Roster) (v : String) : Option Roster :=
  if r.validators.contains v then
    some
      { validators := r.validators.filter (fun x => x ≠ v)
        validators_active :=
          if r.validators_active.contains v then r.validators_active
          else r.validators_active ++ [v] }
  else none

/-- Embedding of `execute::pause_validator` (owner check elided; `none` is the
error raised when the validator is not in the active list). -/
def pause_validator (r : Roster) (v : String) : Option Roster :=
  if r.validators_active.contains v then
    some { r with validators_active := r.validators_active.filter (fun x => x ≠ v) }
  else none

/-- Embedding of `execute::unpause_validator` (owner check elided). -/
def unpause_validator (r : Roster) (v : String) : Roster :=
  if r.validators_active.contains v then r
  else { r with validators_active := r.validators_active ++ [v] }

/-- The roster invariant claimed by the specification: every active validator
is whitelisted. -/
def ActiveSubset (r : Roster) : Prop :=
  ∀ v ∈ r.validators_active, v ∈ r.validators

instance (r : Roster) : Decidable (ActiveSubset r) :=
  inferInstanceAs (Decidable (∀ v ∈ r.validators_active, v ∈ r.validators))

/-! ## Difficulty retargeting (`update_difficulty`) -/

/-- Source constant `TARGET_MINING_DURATION_FLOOR_SECONDS`. -/
def TARGET_MINING_DURATION_FLOOR_SECONDS : Nat := 20

/-- Source constant `TARGET_MINING_DURATION_CEILING_SECONDS`. -/
def TARGET_MINING_DURATION_CEILING_SECONDS : Nat := 300

/-- Embedding of `execute::update_difficulty`: given the stored difficulty and
last-mined timestamp, the block time and whether a proof was accepted in this
call, returns the new difficulty.  `mining_duration` is the `u64` difference
`block_time - miner_last_mined_timestamp` (the caller guarantees
`miner_last_mined_timestamp ≤ block_time`; on `Nat` the subtraction
truncates where the original would abort). -/
def update_difficulty (difficulty last_mined_timestamp block_time : Nat)
    (did_submit_proof : Bool) : Nat :=
  let mining_duration := block_time - last_mined_timestamp
  if mining_duration > TARGET_MINING_DURATION_CEILING_SECONDS ∧ difficulty > 1 then
    difficulty - 1
  else if mining_duration < TARGET_MINING_DURATION_FLOOR_SECONDS ∧ did_submit_proof then
    difficulty + 1
  else difficulty

/-! ## Batch unbonding state machine (`queue_unbond`, `submit_batch`) -/

/-- Modelled from the spec: `compute_unbond_amount` lives in `crate::math`,
whose source is not under `src/`.  Per §4.1 it is the inverse ratio
`shares_to_burn * total_delegated / supply` with truncation toward the pool
(returning zero when the supply is zero, where the ratio is undefined). -/
def compute_unbond_amount (usteak_supply shares_to_burn : Nat)
    (delegations : List Delegation) : Nat :=
  if usteak_supply = 0 then 0
  else shares_to_burn * (delegations.map (·.amount)).sum / usteak_supply

/-- Storage configuration fields consumed by the batch state machine. -/
structure HubConfig where
  epoch_period : Nat
  unbond_period : Nat
  deriving Repr, DecidableEq

/-- The slice of contract storage owned by the batch unbonding state machine:
the single pending batch, the `previous_batches` map and the
`unbond_requests` map (both as lists; map keys are `Batch.id` and
`(UnbondRequest.id, UnbondRequest.user)` respectively). -/
structure UState where
  pending : PendingBatch
  previous : List Batch
  requests : List UnbondRequest
  deriving Repr, DecidableEq

/-- Embedding of the `unbond_requests.update` call in `queue_unbond`: add
`amt` shares to the request stored at key `(id, user)`, inserting a fresh
request when the key is absent. -/
def update_request (reqs : List UnbondRequest) (id : Nat) (user : String)
    (amt : Nat) : List UnbondRequest :=
  if reqs.any (fun r => r.id = id ∧ r.user = user) then
    reqs.map (fun r =>
      if r.id = id ∧ r.user = user then { r with shares := r.shares + amt } else r)
  else reqs ++ [⟨id, user, amt⟩]

/-- Embedding of `execute::queue_unbond`; the `Bool` result records whether an
internal `ExecuteMsg::SubmitBatch` message was pushed (the source pushes it
exactly when `env.block.time.seconds() >= pending_batch.est_unbond_start_time`). -/
def queue_unbond (s : UState) (receiver : String) (usteak_to_burn : Nat)
    (now : Nat) : UState × Bool :=
  let pending := { s.pending with usteak_to_burn := s.pending.usteak_to_burn + usteak_to_burn }
  ({ s with
      pending := pending
      requests := update_request s.requests pending.id receiver usteak_to_burn },
    decide (now ≥ pending.est_unbond_start_time))

/-- Embedding of `execute::submit_batch` (the undelegation and burn messages
are elided; state effects and the timing guard are kept).  `now` is
`env.block.time.seconds()`, `usteak_supply` and `delegations` are the oracle
query results.  The error carries the source's message (sans the interpolated
timestamp); an error leaves the state unchanged because every call is
transactional. -/
def submit_batch (cfg : HubConfig) (s : UState) (now usteak_supply : Nat)
    (delegations : List Delegation) : Except String UState :=
  if now < s.pending.est_unbond_start_time then
    .error "batch can only be submitted for unbonding after the est_unbond_start_time"
  else
    let amount_to_unbond := compute_unbond_amount usteak_supply s.pending.usteak_to_burn delegations
    .ok
      { pending :=
          { id := s.pending.id + 1
            usteak_to_burn := 0
            est_unbond_start_time := now + cfg.epoch_period }
        previous := s.previous ++
          [{ id := s.pending.id
             reconciled := false
             total_shares := s.pending.usteak_to_burn
             amount_unclaimed := amount_to_unbond
             est_unbond_end_time := now + cfg.unbond_period }]
        requests := s.requests }

/-- The state produced by `instantiate` at time `t0`: pending batch id 1, a
zeroed accumulator, start time `t0 + epoch_period`, and empty maps. -/
def init_state (cfg : HubConfig) (t0 : Nat) : UState :=
  ⟨⟨1, 0, t0 + cfg.epoch_period⟩, [], []⟩

/-- A batch-state-machine operation (the two operations that run before any
withdrawal): a queued unbond request, or a batch submission with its oracle
inputs. -/
inductive HubOp where
  | queue (user : String) (amt : Nat) (now : Nat)
  | submit (now usteak_supply : Nat) (delegations : List Delegation)
  deriving Repr

/-- One transactional call: a failed `submit_batch` leaves the state
unchanged. -/
def runOp (cfg : HubConfig) (s : UState) : HubOp → UState
  | .queue u a n => (queue_unbond s u a n).1
  | .submit n sup d =>
      match submit_batch cfg s n sup d with
      | .ok s' => s'
      | .error _ => s

/-- Run a sequence of calls from a state. -/
def runOps (cfg : HubConfig) (s : UState) (ops : List HubOp) : UState :=
  ops.foldl (runOp cfg) s

/-- Total shares requested from batch `id`: the sum of `UnbondRequest.shares`
over all stored requests keyed to that batch. -/
def shares_sum (reqs : List UnbondRequest) (id : Nat) : Nat :=
  ((reqs.filter (fun r => r.id = id)).map (·.shares)).sum

/-- The share-accounting invariant of the batch state machine (spec §3 and
§8): request keys are unique, request ids never exceed the pending batch id,
previous batch ids are strictly below it, and for every batch (pending or
matured) the stored shares sum to the batch's total. -/
def SharesInv (s : UState) : Prop :=
  (s.requests.map (fun r => (r.id, r.user))).Nodup ∧
  (∀ r ∈ s.requests, r.id ≤ s.pending.id) ∧
  (∀ b ∈ s.previous, b.id < s.pending.id) ∧
  shares_sum s.requests s.pending.id = s.pending.usteak_to_burn ∧
  (∀ b ∈ s.previous, shares_sum s.requests b.id = b.total_shares)

instance (s : UState) : Decidable (SharesInv s) := by
  unfold SharesInv
  infer_instance

/-! ## Withdrawals (`withdraw_unbonded`) -/

/-- The batch lookup performed for each request in `withdraw_unbonded`
(`state.previous_batches.load(deps.storage, request.id)`). -/
def find_batch (store : List Batch) (id : Nat) : Option Batch :=
  store.find? (fun b => b.id = id)

/-- The eligibility test of `withdraw_unbonded`: the request's batch exists,
is reconciled, and has finished unbonding strictly before `now`. -/
def request_eligible (store : List Batch) (now : Nat) (r : UnbondRequest) : Bool :=
  match find_batch store r.id with
  | some b => b.reconciled && b.est_unbond_end_time < now
  | none => false

/-- The per-request refund of `withdraw_unbonded`:
`batch.amount_unclaimed.multiply_ratio(request.shares, batch.total_shares)`,
a single full-width multiply followed by a truncating divide. -/
def refund_amount (b : Batch) (r : UnbondRequest) : Nat :=
  b.amount_unclaimed * r.shares / b.total_shares

/-- The body of `withdraw_unbonded`'s loop over the user's requests, threading
the `previous_batches` store, the `unbond_requests` store and the accumulated
refund.  For each eligible request the batch is shrunk
(`total_shares -= shares`, `amount_unclaimed -= refund`), removed when its
`total_shares` reaches zero, and the request is deleted from storage. -/
def withdraw_loop (user : String) (now : Nat) :
    List UnbondRequest → List Batch → List UnbondRequest →
    List Batch × List UnbondRequest × Nat
  | [], store, reqstore => (store, reqstore, 0)
  | r :: rs, store, reqstore =>
    match find_batch store r.id with
    | some b =>
      if b.reconciled && b.est_unbond_end_time < now then
        let refund := refund_amount b r
        let b' := { b with
          total_shares := b.total_shares - r.shares
          amount_unclaimed := b.amount_unclaimed - refund }
        let store' :=
          if b'.total_shares = 0 then store.filter (fun x => x.id ≠ r.id)
          else store.map (fun x => if x.id = r.id then b' else x)
        let reqstore' := reqstore.filter (fun q => ¬(q.id = r.id ∧ q.user = user))
        let out := withdraw_loop user now rs store' reqstore'
        (out.1, out.2.1, refund + out.2.2)
      else withdraw_loop user now rs store reqstore
    | none => withdraw_loop user now rs store reqstore

/-- Embedding of `execute::withdraw_unbonded` (the bank message is represented
by the returned total).  The source scans the user's requests in ascending
key order; the model takes them in store order, which the theorems show is
immaterial.  Fails with the source's error when the accumulated refund is
zero; otherwise returns the new state together with the single transferred
total. -/
def withdraw_unbonded (s : UState) (user : String) (now : Nat) :
    Except String (UState × Nat) :=
  let user_requests := s.requests.filter (fun r => r.user = user)
  let out := withdraw_loop user now user_requests s.previous s.requests
  if out.2.2 = 0 then .error "withdrawable amount is zero"
  else .ok ({ s with previous := out.1, requests := out.2.1 }, out.2.2)

/-! ## Slashing reconciliation (`reconcile`, `reconcile_batches`) -/

/-- Auxiliary pass of the modelled `reconcile_batches`: walk the affected
batches deducting each batch's proportional base share `S * a / T` plus as
much of the outstanding truncation remainder (`carry`) as the batch can
absorb without its `amount_unclaimed` going below zero. -/
def reconcileAux (T S : Nat) : List Batch → Nat → List Batch
  | [], _ => []
  | b :: bs, carry =>
    let base := S * b.amount_unclaimed / T
    let extra := min carry (b.amount_unclaimed - base)
    { b with amount_unclaimed := b.amount_unclaimed - (base + extra) } ::
      reconcileAux T S bs (carry - extra)

/-- Modelled from the spec: `reconcile_batches` lives in `crate::math`, whose
source is not under `src/`.  Per §4.5 it distributes the shortfall `S` across
the affected batches in proportion to each batch's share of the total
unclaimed amount, truncating, with the remainder assigned deterministically
starting from the first batch and clamped so no `amount_unclaimed` is driven
below zero (excess flowing to the next batch). -/
def reconcile_batches (batches : List Batch) (S : Nat) : List Batch :=
  let T := (batches.map (·.amount_unclaimed)).sum
  let base_total := (batches.map (fun b => S * b.amount_unclaimed / T)).sum
  reconcileAux T S batches (S - base_total)

/-- The filter of `execute::reconcile`: batches still unreconciled whose
unbond end time has passed strictly. -/
def reconcilable (now : Nat) (b : Batch) : Bool :=
  b.reconciled = false && now > b.est_unbond_end_time

/-- Embedding of `execute::reconcile`.  `unlocked` is the native-denom amount
among `unlocked_coins`, `actual` the queried bank balance.  The considered
batches are the unreconciled, due ones; the shortfall
`expected - actual` (clamped at zero by `checked_sub ... unwrap_or zero`) is
deducted across them via `reconcile_batches` only when positive; every
considered batch is then saved back with `reconciled = true`. -/
def reconcile (store : List Batch) (unlocked actual now : Nat) : List Batch :=
  let batches := store.filter (reconcilable now)
  let native_expected_received := (batches.map (·.amount_unclaimed)).sum
  let native_expected := native_expected_received + unlocked
  let native_to_deduct := native_expected - actual
  let deducted :=
    if native_to_deduct ≠ 0 then reconcile_batches batches native_to_deduct
    else batches
  let updated := deducted.map (fun b => { b with reconciled := true })
  store.map (fun b => ((find_batch updated b.id).getD b))

/-! ## SHA-256 (the `sha2` crate's `Sha256` as used by the contract),
words as `Nat` reduced mod `2^32` -/

namespace SHA256

/-- Truncation to a 32-bit word. -/
def w32 (n : Nat) : Nat := n % 4294967296

/-- Right rotation of a 32-bit word. -/
def rotr (x n : Nat) : Nat := w32 ((x >>> n) ||| (x <<< (32 - n)))

/-- FIPS 180-4 `Σ0`. -/
def bigSigma0 (x : Nat) : Nat := rotr x 2 ^^^ rotr x 13 ^^^ rotr x 22

/-- FIPS 180-4 `Σ1`. -/
def bigSigma1 (x : Nat) : Nat := rotr x 6 ^^^ rotr x 11 ^^^ rotr x 25

/-- FIPS 180-4 `σ0`. -/
def smallSigma0 (x : Nat) : Nat := rotr x 7 ^^^ rotr x 18 ^^^ (x >>> 3)

/-- FIPS 180-4 `σ1`. -/
def smallSigma1 (x : Nat) : Nat := rotr x 17 ^^^ rotr x 19 ^^^ (x >>> 10)

/-- FIPS 180-4 `Ch` (bitwise not of a word is xor with `2^32 - 1`). -/
def ch (x y z : Nat) : Nat := (x &&& y) ^^^ ((x ^^^ 4294967295) &&& z)

/-- FIPS 180-4 `Maj`. -/
def maj (x y z : Nat) : Nat := (x &&& y) ^^^ (x &&& z) ^^^ (y &&& z)

/-- The 64 SHA-256 round constants (decimal). -/
def K : List Nat :=
  [1116352408, 1899447441, 3049323471, 3921009573, 961987163,
   1508970993, 2453635748, 2870763221, 3624381080, 310598401,
   607225278, 1426881987, 1925078388, 2162078206, 2614888103,
   3248222580, 3835390401, 4022224774, 264347078, 604807628,
   770255983, 1249150122, 1555081692, 1996064986, 2554220882,
   2821834349, 2952996808, 3210313671, 3336571891, 3584528711,
   113926993, 338241895, 666307205, 773529912, 1294757372,
   1396182291, 1695183700, 1986661051, 2177026350, 2456956037,
   2730485921, 2820302411, 3259730800, 3345764771, 3516065817,
   3600352804, 4094571909, 275423344, 430227734, 506948616,
   659060556, 883997877, 958139571, 1322822218, 1537002063,
   1747873779, 1955562222, 2024104815, 2227730452, 2361852424,
   2428436474, 2756734187, 3204031479, 3329325298]

/-- The eight working variables of the compression function. -/
structure Words8 where
  a : Nat
  b : Nat
  c : Nat
  d : Nat
  e : Nat
  f : Nat
  g : Nat
  h : Nat
  deriving Repr, DecidableEq

/-- The SHA-256 initial hash value (decimal). -/
def H0 : Words8 :=
  ⟨1779033703, 3144134277, 1013904242, 2773480762,
   1359893119, 2600822924, 528734635, 1541459225⟩

/-- One compression round. -/
def round (st : Words8) (k w : Nat) : Words8 :=
  let t1 := w32 (st.h + bigSigma1 st.e + ch st.e st.f st.g + k + w)
  let t2 := w32 (bigSigma0 st.a + maj st.a st.b st.c)
  ⟨w32 (t1 + t2), st.a, st.b, st.c, w32 (st.d + t1), st.e, st.f, st.g⟩

/-- Append the next message-schedule word. -/
def stepW (ws : List Nat) : List Nat :=
  let n := ws.length
  ws ++ [w32 (smallSigma1 (ws.getD (n - 2) 0) + ws.getD (n - 7) 0 +
              smallSigma0 (ws.getD (n - 15) 0) + ws.getD (n - 16) 0)]

/-- Extend the 16 block words by `n` schedule words. -/
def buildW (ws : List Nat) : Nat → List Nat
  | 0 => ws
  | n + 1 => buildW (stepW ws) n

/-- Compress one 16-word block into the hash state. -/
def compress (st : Words8) (block : List Nat) : Words8 :=
  let ws := buildW block 48
  let o := (List.zip ws K).foldl (fun s p => round s p.2 p.1) st
  ⟨w32 (st.a + o.a), w32 (st.b + o.b), w32 (st.c + o.c), w32 (st.d + o.d),
   w32 (st.e + o.e), w32 (st.f + o.f), w32 (st.g + o.g), w32 (st.h + o.h)⟩

/-- Big-endian bytes of a 64-bit length. -/
def beBytes8 (n : Nat) : List Nat :=
  [n >>> 56 &&& 255, n >>> 48 &&& 255, n >>> 40 &&& 255, n >>> 32 &&& 255,
   n >>> 24 &&& 255, n >>> 16 &&& 255, n >>> 8 &&& 255, n &&& 255]

/-- Big-endian bytes of a 32-bit word. -/
def beBytes4 (n : Nat) : List Nat :=
  [n >>> 24 &&& 255, n >>> 16 &&& 255, n >>> 8 &&& 255, n &&& 255]

/-- FIPS 180-4 padding: `0x80`, zeros to 56 mod 64, the bit length. -/
def padMsg (msg : List Nat) : List Nat :=
  let L := msg.length
  let z := (120 - ((L + 1) % 64)) % 64
  msg ++ [128] ++ List.replicate z 0 ++ beBytes8 (8 * L)

/-- Pack bytes into big-endian 32-bit words. -/
def bytesToWords : List Nat → List Nat
  | b0 :: b1 :: b2 :: b3 :: rest =>
    (b0 * 16777216 + b1 * 65536 + b2 * 256 + b3) :: bytesToWords rest
  | _ => []

/-- Split a word list into 16-word blocks; the fuel (any bound on the number
of blocks, such as the list length) keeps the recursion structural. -/
def chunk16 : Nat → List Nat → List (List Nat)
  | 0, _ => []
  | _ + 1, [] => []
  | fuel + 1, ws => ws.take 16 :: chunk16 fuel (ws.drop 16)

/-- The SHA-256 digest (32 bytes) of a byte string. -/
def sha256 (msg : List Nat) : List Nat :=
  let ws := bytesToWords (padMsg msg)
  let final := (chunk16 ws.length ws).foldl compress H0
  ([final.a, final.b, final.c, final.d,
    final.e, final.f, final.g, final.h].map beBytes4).flatten

end SHA256

/-! ## Mining / difficulty engine (`compute_miner_proof`, `submit_proof`,
`update_entropy`) -/

/-- Lowercase hex digit. -/
def hexChar (n : Nat) : Char :=
  if n < 10 then Char.ofNat (48 + n) else Char.ofNat (87 + n)

/-- The `hex::encode` of a byte string used by the contract. -/
def hexOfBytes (bs : List Nat) : String :=
  String.mk (bs.flatMap (fun b => [hexChar (b / 16), hexChar (b % 16)]))

/-- Bytes of a string as fed to the hasher (`sha2` hashes the UTF-8 bytes;
every string the contract hashes — hex strings and bech32 addresses — is
ASCII, where code points and UTF-8 bytes coincide). -/
def strBytes (s : String) : List Nat := s.data.map Char.toNat

/-- `Uint64::to_le_bytes`: the nonce as 8 little-endian bytes. -/
def leBytes8 (n : Nat) : List Nat :=
  [n &&& 255, n >>> 8 &&& 255, n >>> 16 &&& 255, n >>> 24 &&& 255,
   n >>> 32 &&& 255, n >>> 40 &&& 255, n >>> 48 &&& 255, n >>> 56 &&& 255]

/-- Embedding of `execute::compute_miner_proof`:
`hex(sha256(miner_entropy || miner_address || nonce_le_bytes))`.  The source
wraps the result in `StdResult` but never fails (hex output is always valid
UTF-8). -/
def compute_miner_proof (miner_entropy miner_address : String) (nonce : Nat) : String :=
  hexOfBytes (SHA256.sha256
    (strBytes miner_entropy ++ strBytes miner_address ++ leBytes8 nonce))

/-- Embedding of `execute::create_difficulty_prefix`: `difficulty` many
ASCII `'0'` characters. -/
def create_difficulty_prefix (difficulty : Nat) : String :=
  String.mk (List.replicate difficulty '0')

/-- Rust `str::starts_with` on the character sequences. -/
def startsWithStr (s p : String) : Bool := p.data.isPrefixOf s.data

/-- `pfc_steak::hub::FeeType`. -/
inductive FeeType where
  | Wallet
  | FeeSplit
  deriving Repr, DecidableEq

/-- The mining-related slice of contract storage (plus the fee account that
`submit_proof` redirects). -/
structure MinerState where
  miner_entropy : String
  miner_entropy_draft : String
  miner_difficulty : Nat
  miner_last_mined_timestamp : Nat
  miner_last_mined_block : Nat
  validator_mining_powers : List (String × Nat)
  total_mining_power : Nat
  fee_account : String
  fee_account_type : FeeType
  deriving Repr, DecidableEq

/-- Accrue `amt` to a validator's entry of the `validator_mining_powers` map
(defaulting to zero when absent). -/
def powers_add (ps : List (String × Nat)) (v : String) (amt : Nat) :
    List (String × Nat) :=
  if ps.any (fun p => p.1 = v) then
    ps.map (fun p => if p.1 = v then (p.1, p.2 + amt) else p)
  else ps ++ [(v, amt)]

/-- Embedding of `execute::update_entropy`: fold the contribution into the
draft seed and retarget difficulty with `did_submit_proof = false`. -/
def update_entropy (s : MinerState) (entropy : String) (now : Nat) : MinerState :=
  { s with
    miner_entropy_draft :=
      hexOfBytes (SHA256.sha256 (strBytes s.miner_entropy_draft ++ strBytes entropy))
    miner_difficulty :=
      update_difficulty s.miner_difficulty s.miner_last_mined_timestamp now false }

/-- Embedding of `execute::submit_proof` (the dispatched harvest message is
elided).  `staked_validators` is the host staking module's validator set
consulted by `querier.query_validator`; `now` and `height` are
`env.block.time.seconds()` and `env.block.height`.  On acceptance the
published entropy becomes `hex(sha256(draft || proof))`, the draft absorbs
the proof, mining power accrues by the block delta, the timestamps update and
the fee account is forced to the submitting wallet. -/
def submit_proof (staked_validators : List String) (s : MinerState)
    (sender : String) (nonce : Nat) (validator_address : String)
    (now height : Nat) : Except String MinerState :=
  if staked_validators.contains validator_address then
    let entropy_hash := compute_miner_proof s.miner_entropy sender nonce
    let difficulty_string := create_difficulty_prefix s.miner_difficulty
    if startsWithStr entropy_hash difficulty_string then
      let mining_duration_blocks := height - s.miner_last_mined_block
      .ok
        { miner_entropy :=
            hexOfBytes (SHA256.sha256 (strBytes s.miner_entropy_draft ++ strBytes entropy_hash))
          miner_entropy_draft := entropy_hash
          miner_difficulty :=
            update_difficulty s.miner_difficulty s.miner_last_mined_timestamp now true
          miner_last_mined_timestamp := now
          miner_last_mined_block := height
          validator_mining_powers :=
            powers_add s.validator_mining_powers validator_address mining_duration_blocks
          total_mining_power := s.total_mining_power + mining_duration_blocks
          fee_account := sender
          fee_account_type := .Wallet }
    else .error "block hash does not meet difficulty requirement"
  else .error "validator address not found in staking module"

/-! ## Delegation selection (`bond`, `reinvest`) and rebalancing targets -/

/-- Modelled from the spec: `query_delegations` lives in `crate::helpers`,
whose source is not under `src/`.  Per §6 it queries the contract's current
delegation to each validator of the given set, one entry per validator
(`stakes` is the host staking oracle). -/
def query_delegations (validators : List String) (stakes : String → Nat)
    (denom : String) : List Delegation :=
  validators.map (fun v => ⟨v, stakes v, denom⟩)

/-- Modelled from the spec: `compute_mint_amount` lives in `crate::math`,
whose source is not under `src/`.  Per §4.1: the deposit itself at zero
supply, otherwise `deposit * supply / total_delegated` truncated. -/
def compute_mint_amount (usteak_supply amount_to_bond : Nat)
    (delegations : List Delegation) : Nat :=
  if usteak_supply = 0 then amount_to_bond
  else amount_to_bond * usteak_supply / (delegations.map (·.amount)).sum

/-- Modelled from the spec: `compute_target_delegation_from_mining_power`
lives in `crate::math`, whose source is not under `src/`.  Per §4.3:
`total_bonded * validator_power / total_power`, with the zero-allocation
policy when `total_power` is zero. -/
def compute_target_delegation_from_mining_power
    (total_bonded validator_power total_power : Nat) : Nat :=
  if total_power = 0 then 0 else total_bonded * validator_power / total_power

/-- Embedding of `execute::bond` (fund parsing and messages elided; the
returned pair is the single delegation built and the minted amount).  The
linear scan over `delegations[0]` / `delegations[1..]` keeps the first
encountered minimum; an empty active set makes the source index out of
bounds, which surfaces as `RunResult.panic`. -/
def bond (validators_active : List String) (stakes : String → Nat)
    (denom : String) (amount_to_bond usteak_supply : Nat) :
    RunResult (Delegation × Nat) :=
  let delegations := query_delegations validators_active stakes denom
  match delegations with
  | [] => .panic
  | d0 :: rest =>
    let best := rest.foldl
      (fun (p : String × Nat) d => if d.amount < p.2 then (d.validator, d.amount) else p)
      (d0.validator, d0.amount)
    .ok (⟨best.1, amount_to_bond, denom⟩,
      compute_mint_amount usteak_supply amount_to_bond delegations)

/-- Rust `core::cmp::Ordering` as an index (`Less < Equal < Greater`). -/
def ordVal : Ordering → Nat
  | .lt => 0
  | .eq => 1
  | .gt => 2

/-- One validator's entry in the destination scan of `reinvest`/rebalancing:
its current delegation and its mining-power target. -/
structure Cand where
  validator : String
  amount : Nat
  target : Nat
  deriving Repr, DecidableEq

/-- Rust `u128::abs_diff`. -/
def absDiff (a b : Nat) : Nat := if b ≤ a then a - b else b - a

/-- The running-best update of `reinvest`'s loop: replace the incumbent when
`current_cmp > cmp || (current_cmp.is_gt() && current_diff > diff)`, where
`current_cmp = target.cmp(&amount)` and `current_diff = target.abs_diff(amount)`. -/
def better (best : String × Nat × Ordering) (d : Cand) : String × Nat × Ordering :=
  let current_cmp := compare d.target d.amount
  let current_diff := absDiff d.target d.amount
  if ordVal best.2.2 < ordVal current_cmp ∨ (current_cmp = .gt ∧ best.2.1 < current_diff) then
    (d.validator, current_diff, current_cmp)
  else best

/-- The full destination scan of `reinvest` over `delegations[0]` and
`delegations[1..]`: the initial incumbent's diff is the deficit when its
comparison is `Greater` and zero otherwise; `none` on the empty list, where
the source indexes out of bounds. -/
def select_destination : List Cand → Option (String × Nat × Ordering)
  | [] => none
  | d :: ds =>
    let cmp0 := compare d.target d.amount
    let diff0 := if cmp0 = .gt then d.target - d.amount else 0
    some (ds.foldl better (d.validator, diff0, cmp0))

/-- The candidate list `reinvest` and `rebalance` scan: each active
validator's current delegation paired with its §4.3 target. -/
def reinvest_cands (validators_active : List String) (stakes : String → Nat)
    (powers : String → Nat) (total_mining_power : Nat) (denom : String) :
    List Cand :=
  let delegations := query_delegations validators_active stakes denom
  let total_bonded := (delegations.map (·.amount)).sum
  delegations.map (fun d =>
    ⟨d.validator, d.amount,
      compute_target_delegation_from_mining_power total_bonded
        (powers d.validator) total_mining_power⟩)

/-- Embedding of `execute::reinvest` (messages elided; the returned pair is
the single delegation built and the fee amount sent to the fee account).
`prev_coin`/`current_coin` are the stored snapshot and the queried balance;
`fee_rate_num` is the fee `Decimal`'s fixed-point numerator (18 decimal
places), so `checked_mul_uint` is `fee_rate_num * amount / 10^18` truncated. -/
def reinvest (validators_active : List String) (stakes : String → Nat)
    (powers : String → Nat) (total_mining_power : Nat)
    (prev_coin current_coin fee_rate_num : Nat) (denom : String) :
    RunResult (Delegation × Nat) :=
  if current_coin ≤ prev_coin then .err "no rewards"
  else
    let amount_to_bond := current_coin - prev_coin
    let cands := reinvest_cands validators_active stakes powers total_mining_power denom
    match select_destination cands with
    | none => .panic
    | some (validator, _, _) =>
      let fee_amount :=
        if fee_rate_num = 0 then 0
        else fee_rate_num * amount_to_bond / 1000000000000000000
      let amount_to_bond_minus_fees := amount_to_bond - fee_amount
      .ok (⟨validator, amount_to_bond_minus_fees, denom⟩, fee_amount)

/-- A redelegation instruction. -/
structure Redelegation where
  src : String
  dst : String
  amount : Nat
  deriving Repr, DecidableEq

/-- Source pass of the modelled rebalancing computation: move each surplus
validator's excess toward the destination, capped by the remaining deficit,
suppressing moves below the minimum. -/
def rebalance_moves (dst : String) (minimum : Nat) :
    List Cand → Nat → List Redelegation
  | [], _ => []
  | d :: ds, remaining =>
    if d.target < d.amount then
      let move := min (d.amount - d.target) remaining
      if minimum ≤ move ∧ 0 < move then
        ⟨d.validator, dst, move⟩ :: rebalance_moves dst minimum ds (remaining - move)
      else rebalance_moves dst minimum ds remaining
    else rebalance_moves dst minimum ds remaining

/-- Modelled from the spec: `compute_redelegations_for_rebalancing` lives in
`crate::math`, whose source is not under `src/`.  Per §4.3 the single best
destination is picked by the same running-best scan as `reinvest`
(§4.2 pattern), sources are the surplus validators, and moves below the
minimum threshold are suppressed. -/
def compute_redelegations_for_rebalancing (cands : List Cand) (minimum : Nat) :
    List Redelegation :=
  match select_destination cands with
  | none => []
  | some (dst, diff, cmp) =>
    if cmp = .gt then rebalance_moves dst minimum cands diff else []

/-! ## Closed forms used to state the withdrawal and selection theorems -/

/-- The refund `withdraw_unbonded` grants request `r`: the pro-rata share of
its batch when the batch exists, is reconciled and is due, and zero
otherwise. -/
def eligible_refund (st : List Batch) (now : Nat) (r : UnbondRequest) : Nat :=
  match find_batch st r.id with
  | some b =>
    if b.reconciled && b.est_unbond_end_time < now then refund_amount b r else 0
  | none => 0

/-- The batch store after `withdraw_unbonded` processes the request list
`rs`: each batch addressed by an eligible request is shrunk by that request's
shares and refund and dropped once its shares reach zero; every other batch
is untouched. -/
def apply_withdrawals (rs : List UnbondRequest) (now : Nat) (st : List Batch) :
    List Batch :=
  st.filterMap (fun b =>
    match rs.find? (fun r => r.id = b.id) with
    | some r =>
      if b.reconciled && b.est_unbond_end_time < now then
        if b.total_shares - r.shares = 0 then none
        else some
          { b with
            total_shares := b.total_shares - r.shares
            amount_unclaimed := b.amount_unclaimed - refund_amount b r }
      else some b
    | none => some b)

/-- Whether `withdraw_unbonded` deletes the stored request `x`: it is keyed
to the withdrawing user and one of the processed requests `rs` with its id is
eligible. -/
def removed_key (st : List Batch) (now : Nat) (rs : List UnbondRequest)
    (user : String) (x : UnbondRequest) : Bool :=
  x.user = user && rs.any (fun r => r.id = x.id && request_eligible st now r)

/-- Invariant of `reinvest`'s running-best scan after the candidates `l` have
been seen: the incumbent is one of them (with its comparison, and its deficit
when the comparison is `Greater`), its comparison is `Greater` as soon as any
seen candidate has a positive deficit, and its recorded diff dominates every
seen positive deficit. -/
def GoodBest (l : List Cand) (best : String × Nat × Ordering) : Prop :=
  (∃ d ∈ l, best.1 = d.validator ∧ best.2.2 = compare d.target d.amount ∧
    (compare d.target d.amount = .gt → best.2.1 = absDiff d.target d.amount)) ∧
  ((∃ d ∈ l, compare d.target d.amount = .gt) → best.2.2 = .gt) ∧
  (∀ d ∈ l, compare d.target d.amount = .gt → absDiff d.target d.amount ≤ best.2.1)

/-! ## Theorems -/

set_option maxRecDepth 16000

/-- Regression vector from the source's `test_compute_miner_proof`. -/
theorem compute_miner_proof_regression_vector :
    compute_miner_proof "abcdefg" "cosmos123" 3825297897467829464 =
      "eb7d03dd856d797aea48b2a080357810c50b366d2a40fd358e1f1b18d3a62d5c" := by
  decide

/-- Regression vectors from the source's `test_create_difficulty_prefix`. -/
theorem create_difficulty_prefix_vectors :
    create_difficulty_prefix 3 = "000" ∧ create_difficulty_prefix 1 = "0" := by
  decide

/-- C1: the claimed roster invariant fails in the code.  Removing the only
whitelisted validator leaves it in `validators_active` (the active-set update
block of `remove_validator` is the body of `unpause_validator`, so the
removed validator is kept — or even re-added when it was paused), violating
both "belongs to neither list" and the active-subset invariant; the
`pause_validator` half of the claim does hold, as the last two conjuncts
show. -/
theorem C1_remove_validator_leaves_validator_active :
    remove_validator ⟨["val1"], ["val1"]⟩ "val1" = some ⟨[], ["val1"]⟩ ∧
    remove_validator ⟨["val1"], []⟩ "val1" = some ⟨[], ["val1"]⟩ ∧
    ¬ ActiveSubset ⟨[], ["val1"]⟩ ∧
    pause_validator ⟨["val1"], ["val1"]⟩ "val1" = some ⟨["val1"], []⟩ ∧
    ActiveSubset ⟨["val1"], []⟩ := by
  decide

/-- C8: `update_difficulty` decrements the difficulty by exactly one when the
mining duration exceeds 300 s and the difficulty exceeds one, increments it
by exactly one when the duration is under 20 s and a proof was accepted,
leaves it unchanged otherwise; without an accepted proof it never increases
(in particular along `update_entropy`, which passes `false`), and it never
falls below one. -/
theorem C8_update_difficulty_retarget (difficulty last_ts now : Nat) (did : Bool)
    (_hle : last_ts ≤ now) :
    (300 < now - last_ts ∧ 1 < difficulty →
      update_difficulty difficulty last_ts now did = difficulty - 1) ∧
    (¬(300 < now - last_ts ∧ 1 < difficulty) → now - last_ts < 20 → did = true →
      update_difficulty difficulty last_ts now did = difficulty + 1) ∧
    (¬(300 < now - last_ts ∧ 1 < difficulty) → ¬(now - last_ts < 20 ∧ did = true) →
      update_difficulty difficulty last_ts now did = difficulty) ∧
    (did = false → update_difficulty difficulty last_ts now did ≤ difficulty) ∧
    (1 ≤ difficulty → 1 ≤ update_difficulty difficulty last_ts now did) ∧
    (∀ (s : MinerState) (e : String) (t : Nat),
      (update_entropy s e t).miner_difficulty ≤ s.miner_difficulty) := by
  refine ⟨?_, ?_, ?_, ?_, ?_, ?_⟩
  · intro hc
    simp only [update_difficulty, TARGET_MINING_DURATION_CEILING_SECONDS]
    rw [if_pos hc]
  · intro hc hd hdid
    subst hdid
    simp only [update_difficulty, TARGET_MINING_DURATION_CEILING_SECONDS,
      TARGET_MINING_DURATION_FLOOR_SECONDS]
    rw [if_neg hc, if_pos ⟨hd, trivial⟩]
  · intro hc hd
    simp only [update_difficulty, TARGET_MINING_DURATION_CEILING_SECONDS,
      TARGET_MINING_DURATION_FLOOR_SECONDS]
    rw [if_neg hc, if_neg hd]
  · intro hdid
    subst hdid
    simp only [update_difficulty]
    split_ifs <;> simp_all
  · intro h1
    simp only [update_difficulty]
    split_ifs <;> omega
  · intro s e t
    simp only [update_entropy, update_difficulty]
    split_ifs <;> simp_all

/-- Witness for `C8_update_difficulty_retarget`: a 400-second gap at
difficulty 2 with no proof decrements to 1. -/
theorem C8_update_difficulty_retarget_witness :
    update_difficulty 2 0 400 false = 2 - 1 :=
  (C8_update_difficulty_retarget 2 0 400 false (by decide)).1 (by decide)

/-- C2: `submit_batch` fails with the timing error exactly when the block
time is before the pending batch's start time (the transactional model makes
a failing call leave the state unchanged, as the `runOp` conjunct records);
on success it persists a batch with the pending id, `reconciled = false`,
`total_shares` equal to the accumulated burn total and end time
`now + unbond_period`, and replaces the pending batch with id+1, a zero
accumulator and start time `now + epoch_period`; and `queue_unbond` emits the
internal `SubmitBatch` message exactly when the block time has reached the
pending start time. -/
theorem C2_submit_batch_lifecycle (cfg : HubConfig) (s : UState)
    (now usteak_supply : Nat) (dels : List Delegation) (r : String) (amt : Nat) :
    (now < s.pending.est_unbond_start_time →
      submit_batch cfg s now usteak_supply dels =
        .error "batch can only be submitted for unbonding after the est_unbond_start_time" ∧
      runOp cfg s (.submit now usteak_supply dels) = s) ∧
    (s.pending.est_unbond_start_time ≤ now →
      submit_batch cfg s now usteak_supply dels = .ok
        { pending :=
            { id := s.pending.id + 1
              usteak_to_burn := 0
              est_unbond_start_time := now + cfg.epoch_period }
          previous := s.previous ++
            [{ id := s.pending.id
               reconciled := false
               total_shares := s.pending.usteak_to_burn
               amount_unclaimed :=
                 compute_unbond_amount usteak_supply s.pending.usteak_to_burn dels
               est_unbond_end_time := now + cfg.unbond_period }]
          requests := s.requests }) ∧
    ((queue_unbond s r amt now).2 = true ↔ s.pending.est_unbond_start_time ≤ now) := by
  refine ⟨?_, ?_, ?_⟩
  · intro hlt
    constructor
    · simp only [submit_batch]
      rw [if_pos hlt]
    · simp only [runOp, submit_batch]
      rw [if_pos hlt]
  · intro hge
    simp only [submit_batch]
    rw [if_neg (by omega)]
  · simp [queue_unbond, ge_iff_le]

/-- Witness for `C2_submit_batch_lifecycle`: submitting the freshly
instantiated pending batch right at its start time matures batch 1 and opens
pending batch 2. -/
theorem C2_submit_batch_lifecycle_witness :
    submit_batch ⟨100, 200⟩ (init_state ⟨100, 200⟩ 0) 100 0 [] =
      .ok ⟨⟨2, 0, 200⟩, [⟨1, false, 0, 0, 300⟩], []⟩ ∧
    (queue_unbond (init_state ⟨100, 200⟩ 0) "u" 5 100).2 = true :=
  ⟨(C2_submit_batch_lifecycle ⟨100, 200⟩ (init_state ⟨100, 200⟩ 0) 100 0 [] "u" 5).2.1
      (by decide),
   (C2_submit_batch_lifecycle ⟨100, 200⟩ (init_state ⟨100, 200⟩ 0) 100 0 [] "u" 5).2.2.mpr
      (by decide)⟩

/-- C10: `bond` and `reinvest` index `delegations[0]` over the active set:
with no active validator the call is undefined (an out-of-bounds panic, not
one of the taxonomy's errors), and with at least one active validator the
panic cannot occur. -/
theorem C10_bond_reinvest_first_index (va : List String)
    (stakes powers : String → Nat) (tm amt sup prev current fee : Nat)
    (denom : String) :
    (va = [] →
      bond va stakes denom amt sup = .panic ∧
      (prev < current →
        reinvest va stakes powers tm prev current fee denom = .panic)) ∧
    (va ≠ [] →
      bond va stakes denom amt sup ≠ .panic ∧
      reinvest va stakes powers tm prev current fee denom ≠ .panic) := by
  constructor
  · rintro rfl
    refine ⟨rfl, fun hlt => ?_⟩
    simp only [reinvest]
    rw [if_neg (by omega)]
    rfl
  · intro hne
    obtain ⟨v, rest, rfl⟩ := List.exists_cons_of_ne_nil hne
    constructor
    · simp [bond, query_delegations]
    · simp only [reinvest]
      split_ifs <;> simp [reinvest_cands, query_delegations, select_destination]

/-- Witness for `C10_bond_reinvest_first_index`: with every validator paused
a bond panics; with one active validator it cannot. -/
theorem C10_bond_reinvest_first_index_witness :
    bond [] (fun _ => 0) "uluna" 5 0 = .panic ∧
    bond ["val1"] (fun _ => 0) "uluna" 5 0 ≠ .panic :=
  ⟨((C10_bond_reinvest_first_index [] (fun _ => 0) (fun _ => 0) 0 5 0 0 1 0
        "uluna").1 rfl).1,
   ((C10_bond_reinvest_first_index ["val1"] (fun _ => 0) (fun _ => 0) 0 5 0 0 1 0
        "uluna").2 (by decide)).1⟩

/-- C7: `submit_proof` fails when the host staking module does not know the
referenced validator as one currently staked to, and — validator known —
rejects with the difficulty error exactly when the hex digest of
`sha256(published miner_entropy || sender || nonce as 8 LE bytes)` does not
begin with `difficulty` ASCII `'0'` characters. -/
theorem C7_submit_proof_gates (staked : List String) (s : MinerState)
    (sender : String) (nonce : Nat) (validator : String) (now height : Nat) :
    (staked.contains validator = false →
      submit_proof staked s sender nonce validator now height =
        .error "validator address not found in staking module") ∧
    (staked.contains validator = true →
      (submit_proof staked s sender nonce validator now height =
          .error "block hash does not meet difficulty requirement" ↔
        startsWithStr (compute_miner_proof s.miner_entropy sender nonce)
          ( create_difficulty_prefix s.miner_difficulty) = false)) := by
  refine ⟨fun hmem => ?_, fun hmem => ?_⟩
  · simp only [submit_proof]
    rw [if_neg (by simpa using hmem)]
  · simp only [submit_proof, hmem, if_true]
    cases hsw : startsWithStr (compute_miner_proof s.miner_entropy sender nonce)
        ( create_difficulty_prefix s.miner_difficulty) <;>
      simp [hsw]

/-- Witness for `C7_submit_proof_gates`: an empty staking set rejects the
validator lookup, and with the validator known the difficulty gate is
equivalent to the prefix test. -/
theorem C7_submit_proof_gates_witness :
    submit_proof [] ⟨"e", "d", 1, 0, 0, [], 0, "f", .Wallet⟩ "m" 0 "val1" 0 0 =
      .error "validator address not found in staking module" ∧
    (submit_proof ["val1"] ⟨"e", "d", 0, 0, 0, [], 0, "f", .Wallet⟩ "m" 7 "val1" 5 5 =
        .error "block hash does not meet difficulty requirement" ↔
      startsWithStr (compute_miner_proof "e" "m" 7) ( create_difficulty_prefix 0) = false) :=
  ⟨(C7_submit_proof_gates [] ⟨"e", "d", 1, 0, 0, [], 0, "f", .Wallet⟩ "m" 0 "val1" 0 0).1
      rfl,
   (C7_submit_proof_gates ["val1"] ⟨"e", "d", 0, 0, 0, [], 0, "f", .Wallet⟩ "m" 7 "val1"
      5 5).2 rfl⟩

/-! ### Share accounting (C6) -/

/-- Contribution of a cons cell to a batch's requested-share sum. -/
theorem shares_sum_cons (r : UnbondRequest) (l : List UnbondRequest) (j : Nat) :
    shares_sum (r :: l) j = (if r.id = j then r.shares else 0) + shares_sum l j := by
  simp only [shares_sum, List.filter_cons]
  split_ifs with h <;> simp_all

/-- A batch no request points to has a zero requested-share sum. -/
theorem shares_sum_eq_zero (l : List UnbondRequest) (j : Nat)
    (h : ∀ r ∈ l, r.id ≠ j) : shares_sum l j = 0 := by
  have : l.filter (fun r => r.id = j) = [] :=
    List.filter_eq_nil_iff.mpr (by simpa using h)
  simp [shares_sum, this]

/-- Appending a fresh request adds its shares to exactly its batch's sum. -/
theorem shares_sum_append_singleton (l : List UnbondRequest) (id : Nat)
    (user : String) (amt j : Nat) :
    shares_sum (l ++ [⟨id, user, amt⟩]) j
      = shares_sum l j + if j = id then amt else 0 := by
  simp only [shares_sum, List.filter_append, List.map_append, List.sum_append]
  by_cases h : id = j <;> simp [List.filter_cons, h, eq_comm]

/-- Bumping the unique request with key `(id, user)` adds the bump to exactly
that batch's sum. -/
theorem shares_sum_bump (id : Nat) (user : String) (amt j : Nat) :
    ∀ (l : List UnbondRequest),
      (l.map (fun r => (r.id, r.user))).Nodup →
      l.any (fun r => r.id = id ∧ r.user = user) = true →
      shares_sum (l.map (fun r =>
          if r.id = id ∧ r.user = user then { r with shares := r.shares + amt } else r)) j
        = shares_sum l j + if j = id then amt else 0 := by
  intro l
  induction l with
  | nil => intro _ hany; simp at hany
  | cons r rs ih =>
    intro hnd hany
    simp only [List.map_cons, List.nodup_cons] at hnd
    obtain ⟨hkey, hnd'⟩ := hnd
    by_cases hr : r.id = id ∧ r.user = user
    · have hrest : ∀ q ∈ rs, ¬(q.id = id ∧ q.user = user) := by
        intro q hq hqm
        exact hkey (by
          rw [← hr.1, ← hr.2] at hqm
          have : (q.id, q.user) = (r.id, r.user) := by rw [hqm.1, hqm.2]
          rw [← this]
          exact List.mem_map_of_mem _ hq)
      have hmap : rs.map (fun q =>
          if q.id = id ∧ q.user = user then { q with shares := q.shares + amt } else q) = rs := by
        have h1 : rs.map (fun q =>
            if q.id = id ∧ q.user = user then { q with shares := q.shares + amt } else q)
            = rs.map (fun q => q) :=
          List.map_congr_left (fun q hq => by rw [if_neg (hrest q hq)])
        simpa using h1
      simp only [List.map_cons, if_pos hr, hmap, shares_sum_cons]
      rcases hr with ⟨hr1, -⟩
      subst hr1
      split_ifs <;> omega
    · have hany' : rs.any (fun r => r.id = id ∧ r.user = user) = true := by
        simp only [List.any_cons, Bool.or_eq_true, decide_eq_true_eq] at hany
        rcases hany with h | h
        · exact absurd h hr
        · exact h
      simp only [List.map_cons, if_neg hr, shares_sum_cons, ih hnd' hany']
      omega

/-- `queue_unbond`'s request update changes a batch's requested-share sum by
its amount at the targeted batch id and leaves every other batch's sum
unchanged (given unique request keys). -/
theorem shares_sum_update_request (l : List UnbondRequest) (id : Nat)
    (user : String) (amt j : Nat)
    (h : (l.map (fun r => (r.id, r.user))).Nodup) :
    shares_sum (update_request l id user amt) j
      = shares_sum l j + if j = id then amt else 0 := by
  by_cases hany : l.any (fun r => r.id = id ∧ r.user = user) = true
  · unfold update_request
    rw [if_pos hany]
    exact shares_sum_bump id user amt j l h hany
  · unfold update_request
    rw [if_neg hany]
    exact shares_sum_append_singleton l id user amt j

/-- `queue_unbond`'s request update preserves key uniqueness. -/
theorem update_request_keys_nodup (l : List UnbondRequest) (id : Nat)
    (user : String) (amt : Nat)
    (h : (l.map (fun r => (r.id, r.user))).Nodup) :
    ((update_request l id user amt).map (fun r => (r.id, r.user))).Nodup := by
  unfold update_request
  split_ifs with hany
  · have : (l.map (fun r =>
        if r.id = id ∧ r.user = user then { r with shares := r.shares + amt } else r)).map
          (fun r => (r.id, r.user)) = l.map (fun r => (r.id, r.user)) := by
      rw [List.map_map]
      exact List.map_congr_left (fun r _ => by
        by_cases hc : r.id = id ∧ r.user = user <;> simp [hc])
    rw [this]
    exact h
  · rw [List.map_append, List.nodup_append]
    refine ⟨h, by simp, ?_⟩
    intro p hp hps
    simp only [List.map_cons, List.map_nil, List.mem_singleton] at hps
    subst hps
    rw [List.mem_map] at hp
    obtain ⟨r, hr, hkey⟩ := hp
    have : ¬ l.any (fun r => r.id = id ∧ r.user = user) = true := hany
    rw [List.any_eq_true] at this
    exact this ⟨r, hr, by
      simp only [decide_eq_true_eq]
      exact ⟨congrArg Prod.fst hkey, congrArg Prod.snd hkey⟩⟩

/-- Every id in the updated request store is the targeted id or an existing
one. -/
theorem update_request_ids (l : List UnbondRequest) (id : Nat) (user : String)
    (amt : Nat) :
    ∀ r ∈ update_request l id user amt, r.id = id ∨ r.id ∈ l.map (·.id) := by
  unfold update_request
  split_ifs with hany
  · intro r hr
    rw [List.mem_map] at hr
    obtain ⟨q, hq, rfl⟩ := hr
    by_cases hc : q.id = id ∧ q.user = user
    · left; simp [hc]
    · right; simp only [if_neg hc]; exact List.mem_map_of_mem _ hq
  · intro r hr
    rcases List.mem_append.mp hr with h1 | h2
    · right; exact List.mem_map_of_mem _ h1
    · left
      rw [List.mem_singleton] at h2
      subst h2
      rfl

/-- `queue_unbond` preserves the share-accounting invariant. -/
theorem SharesInv_queue_unbond (s : UState) (u : String) (a n : Nat)
    (h : SharesInv s) : SharesInv (queue_unbond s u a n).1 := by
  obtain ⟨hk, hr, hb, hp, hprev⟩ := h
  simp only [queue_unbond, SharesInv]
  refine ⟨update_request_keys_nodup _ _ _ _ hk, ?_, ?_, ?_, ?_⟩
  · intro r hrm
    rcases update_request_ids _ _ _ _ r hrm with h1 | h1
    · exact le_of_eq h1
    · rw [List.mem_map] at h1
      obtain ⟨q, hq, hqe⟩ := h1
      exact hqe ▸ hr q hq
  · exact hb
  · rw [shares_sum_update_request _ _ _ _ _ hk, if_pos rfl]
    omega
  · intro b hbm
    rw [shares_sum_update_request _ _ _ _ _ hk]
    have : b.id ≠ s.pending.id := Nat.ne_of_lt (hb b hbm)
    rw [if_neg this]
    simpa using hprev b hbm

/-- A successful `submit_batch` preserves the share-accounting invariant. -/
theorem SharesInv_submit_batch (cfg : HubConfig) (s : UState)
    (now sup : Nat) (dels : List Delegation) (s' : UState) (h : SharesInv s)
    (hok : submit_batch cfg s now sup dels = .ok s') : SharesInv s' := by
  obtain ⟨hk, hr, hb, hp, hprev⟩ := h
  by_cases ht : now < s.pending.est_unbond_start_time
  · unfold submit_batch at hok
    rw [if_pos ht] at hok
    exact absurd hok (by simp)
  · unfold submit_batch at hok
    rw [if_neg ht] at hok
    simp only [Except.ok.injEq] at hok
    subst hok
    refine ⟨hk, ?_, ?_, ?_, ?_⟩
    · intro r hrm
      exact Nat.le_succ_of_le (hr r hrm)
    · intro b hbm
      rcases List.mem_append.mp hbm with h1 | h1
      · exact Nat.lt_succ_of_lt (hb b h1)
      · rw [List.mem_singleton] at h1
        subst h1
        exact Nat.lt_succ_self _
    · exact shares_sum_eq_zero _ _ (fun r hrm => Nat.ne_of_lt (Nat.lt_succ_of_le (hr r hrm)))
    · intro b hbm
      rcases List.mem_append.mp hbm with h1 | h1
      · exact hprev b h1
      · rw [List.mem_singleton] at h1
        subst h1
        exact hp

/-- Every state the batch state machine can reach satisfies the
share-accounting invariant. -/
theorem SharesInv_runOps (cfg : HubConfig) (ops : List HubOp) :
    ∀ s, SharesInv s → SharesInv (runOps cfg s ops) := by
  induction ops with
  | nil => intro s hs; simpa [runOps] using hs
  | cons op ops ih =>
    intro s hs
    have : runOps cfg s (op :: ops) = runOps cfg (runOp cfg s op) ops := rfl
    rw [this]
    apply ih
    cases op with
    | queue u a n => exact SharesInv_queue_unbond s u a n hs
    | submit n sup d =>
      simp only [runOp]
      cases hsb : submit_batch cfg s n sup d with
      | ok s' => exact SharesInv_submit_batch cfg s n sup d s' hs hsb
      | error e => exact hs

/-- The instantiated state satisfies the share-accounting invariant. -/
theorem SharesInv_init_state (cfg : HubConfig) (t0 : Nat) :
    SharesInv (init_state cfg t0) := by
  refine ⟨?_, ?_, ?_, ?_, ?_⟩ <;> simp [init_state, shares_sum]

/-- C6: in every state reachable by queueing and submitting (the operations
that run before any withdrawal), and for every batch, the stored requests'
shares sum to the batch's total share count — the pending batch's
accumulator, or the matured batch's `total_shares` — and `queue_unbond` and
`submit_batch` each preserve this together with the supporting key
uniqueness and id bounds. -/
theorem C6_requests_match_batch_totals (cfg : HubConfig) (t0 : Nat)
    (ops : List HubOp) :
    SharesInv (runOps cfg (init_state cfg t0) ops) ∧
    (∀ (s : UState) (u : String) (a n : Nat),
      SharesInv s → SharesInv (queue_unbond s u a n).1) ∧
    (∀ (s : UState) (now sup : Nat) (dels : List Delegation) (s' : UState),
      SharesInv s → submit_batch cfg s now sup dels = .ok s' → SharesInv s') :=
  ⟨SharesInv_runOps cfg ops _ (SharesInv_init_state cfg t0),
   fun s u a n h => SharesInv_queue_unbond s u a n h,
   fun s now sup dels s' h hok => SharesInv_submit_batch cfg s now sup dels s' h hok⟩

/-- Witness for `C6_requests_match_batch_totals`: a queue of 5 shares followed
by a submission at the epoch boundary keeps the sums aligned, as does a
queue on a concrete invariant-satisfying state. -/
theorem C6_requests_match_batch_totals_witness :
    SharesInv (runOps ⟨100, 200⟩ (init_state ⟨100, 200⟩ 0)
      [.queue "u" 5 0, .submit 100 10 [⟨"v", 7, "uluna"⟩], .queue "w" 3 100]) ∧
    SharesInv (queue_unbond ⟨⟨2, 0, 200⟩, [⟨1, false, 5, 3, 300⟩],
      [⟨1, "u", 5⟩]⟩ "w" 4 0).1 :=
  ⟨(C6_requests_match_batch_totals ⟨100, 200⟩ 0
      [.queue "u" 5 0, .submit 100 10 [⟨"v", 7, "uluna"⟩], .queue "w" 3 100]).1,
   (C6_requests_match_batch_totals ⟨100, 200⟩ 0 []).2.1
      ⟨⟨2, 0, 200⟩, [⟨1, false, 5, 3, 300⟩], [⟨1, "u", 5⟩]⟩ "w" 4 0 (by decide)⟩

/-! ### Shortfall distribution (C4) -/

/-- A sum of truncated quotients is at most the truncated quotient of the
sum. -/
theorem sum_div_le (l : List Nat) (T : Nat) :
    (l.map (fun x => x / T)).sum ≤ l.sum / T := by
  induction l with
  | nil => simp
  | cons x l ih =>
    simp only [List.map_cons, List.sum_cons]
    calc x / T + (l.map (fun x => x / T)).sum ≤ x / T + l.sum / T :=
          Nat.add_le_add_left ih _
      _ ≤ (x + l.sum) / T := Nat.add_div_le_add_div x l.sum T

/-- A batch's proportional base deduction never exceeds its unclaimed
amount when the shortfall is within the total. -/
theorem base_deduction_le (S T a : Nat) (h : S ≤ T) : S * a / T ≤ a := by
  rcases Nat.eq_zero_or_pos T with hT | hT
  · subst hT; simp
  · calc S * a / T ≤ T * a / T := Nat.div_le_div_right (Nat.mul_le_mul_right a h)
      _ = a := Nat.mul_div_cancel_left a hT

/-- Pointwise description of the modelled distribution pass: fields other
than `amount_unclaimed` are preserved, every deduction is at least the
proportional base share and at most the base share plus the incoming
remainder. -/
theorem reconcileAux_forall₂ (T S : Nat) :
    ∀ (bs : List Batch) (carry : Nat),
      (∀ b ∈ bs, S * b.amount_unclaimed / T ≤ b.amount_unclaimed) →
      List.Forall₂ (fun b b' =>
        b'.id = b.id ∧ b'.reconciled = b.reconciled ∧
        b'.total_shares = b.total_shares ∧
        b'.est_unbond_end_time = b.est_unbond_end_time ∧
        b'.amount_unclaimed + S * b.amount_unclaimed / T ≤ b.amount_unclaimed ∧
        b.amount_unclaimed ≤ b'.amount_unclaimed + S * b.amount_unclaimed / T + carry)
        bs (reconcileAux T S bs carry) := by
  intro bs
  induction bs with
  | nil => intro carry _; simp [reconcileAux]
  | cons b bs ih =>
    intro carry hpt
    simp only [reconcileAux]
    have hb := hpt b (List.mem_cons_self _ _)
    have h1 : min carry (b.amount_unclaimed - S * b.amount_unclaimed / T) ≤ carry :=
      Nat.min_le_left _ _
    have h2 : min carry (b.amount_unclaimed - S * b.amount_unclaimed / T)
        ≤ b.amount_unclaimed - S * b.amount_unclaimed / T := Nat.min_le_right _ _
    refine List.Forall₂.cons ⟨rfl, rfl, rfl, rfl, by dsimp only; omega,
      by dsimp only; omega⟩ ?_
    refine (ih _ (fun x hx => hpt x (List.mem_cons_of_mem _ hx))).imp ?_
    rintro a b' ⟨e1, e2, e3, e4, e5, e6⟩
    exact ⟨e1, e2, e3, e4, e5, le_trans e6 (by omega)⟩

/-- Sum identity of the modelled distribution pass: as long as the carry and
the base shares fit in the total, everything carried in gets deducted. -/
theorem reconcileAux_sum (T S : Nat) :
    ∀ (bs : List Batch) (carry : Nat),
      (∀ b ∈ bs, S * b.amount_unclaimed / T ≤ b.amount_unclaimed) →
      carry + (bs.map (fun b => S * b.amount_unclaimed / T)).sum
          ≤ (bs.map (·.amount_unclaimed)).sum →
      ((reconcileAux T S bs carry).map (·.amount_unclaimed)).sum
          + carry + (bs.map (fun b => S * b.amount_unclaimed / T)).sum
        = (bs.map (·.amount_unclaimed)).sum := by
  intro bs
  induction bs with
  | nil =>
    intro carry _ hc
    simp only [reconcileAux, List.map_nil, List.sum_nil] at hc ⊢
    omega
  | cons b bs ih =>
    intro carry hpt hc
    have hb := hpt b (List.mem_cons_self _ _)
    have hsumpt : (bs.map (fun b => S * b.amount_unclaimed / T)).sum
        ≤ (bs.map (·.amount_unclaimed)).sum :=
      List.sum_le_sum (fun x hx => hpt x (List.mem_cons_of_mem _ hx))
    simp only [List.map_cons, List.sum_cons] at hc ⊢
    simp only [reconcileAux, List.map_cons, List.sum_cons]
    have h1 : min carry (b.amount_unclaimed - S * b.amount_unclaimed / T) ≤ carry :=
      min_le_left _ _
    have h2 : min carry (b.amount_unclaimed - S * b.amount_unclaimed / T)
        ≤ b.amount_unclaimed - S * b.amount_unclaimed / T := min_le_right _ _
    have hrec := ih (carry - min carry (b.amount_unclaimed - S * b.amount_unclaimed / T))
      (fun x hx => hpt x (List.mem_cons_of_mem _ hx)) (by omega)
    omega

/-- C4: the modelled `reconcile_batches` (spec §4.5) deducts exactly the
shortfall `S` across the affected batches (first conjunct: the new unclaimed
total plus `S` is the old total, so the per-batch deductions sum to `S` and
no `amount_unclaimed` is driven below zero), leaves all other batch fields
alone, and gives every batch a deduction between its proportional base share
`S * amount_unclaimed / total` and that base share plus the truncation
remainder, which is assigned deterministically front-to-back. -/
theorem C4_reconcile_batches_distribution (batches : List Batch) (S : Nat)
    (hpos : 0 < S) (hle : S ≤ (batches.map (·.amount_unclaimed)).sum) :
    ((reconcile_batches batches S).map (·.amount_unclaimed)).sum + S
        = (batches.map (·.amount_unclaimed)).sum ∧
    List.Forall₂ (fun b b' =>
      b'.id = b.id ∧ b'.reconciled = b.reconciled ∧
      b'.total_shares = b.total_shares ∧
      b'.est_unbond_end_time = b.est_unbond_end_time ∧
      b'.amount_unclaimed
          + S * b.amount_unclaimed / (batches.map (·.amount_unclaimed)).sum
        ≤ b.amount_unclaimed ∧
      b.amount_unclaimed ≤ b'.amount_unclaimed
          + S * b.amount_unclaimed / (batches.map (·.amount_unclaimed)).sum
          + (S - (batches.map (fun b =>
              S * b.amount_unclaimed / (batches.map (·.amount_unclaimed)).sum)).sum))
      batches (reconcile_batches batches S) := by
  have hpt : ∀ b ∈ batches,
      S * b.amount_unclaimed / (batches.map (·.amount_unclaimed)).sum
        ≤ b.amount_unclaimed :=
    fun b _ => base_deduction_le S _ b.amount_unclaimed hle
  have hbase_le : (batches.map (fun b =>
      S * b.amount_unclaimed / (batches.map (·.amount_unclaimed)).sum)).sum ≤ S := by
    have h1 : (batches.map (fun b =>
        S * b.amount_unclaimed / (batches.map (·.amount_unclaimed)).sum)).sum
        = ((batches.map (fun b => S * b.amount_unclaimed)).map
            (fun x => x / (batches.map (·.amount_unclaimed)).sum)).sum := by
      rw [List.map_map]
      rfl
    have h2 := sum_div_le (batches.map (fun b => S * b.amount_unclaimed))
      ((batches.map (·.amount_unclaimed)).sum)
    have h3 : (batches.map (fun b => S * b.amount_unclaimed)).sum
        = S * (batches.map (·.amount_unclaimed)).sum :=
      List.sum_map_mul_left batches (·.amount_unclaimed) S
    have hT : 0 < (batches.map (·.amount_unclaimed)).sum := lt_of_lt_of_le hpos hle
    rw [h1]
    calc ((batches.map (fun b => S * b.amount_unclaimed)).map
          (fun x => x / (batches.map (·.amount_unclaimed)).sum)).sum
        ≤ (batches.map (fun b => S * b.amount_unclaimed)).sum
            / (batches.map (·.amount_unclaimed)).sum := h2
      _ = S * (batches.map (·.amount_unclaimed)).sum
            / (batches.map (·.amount_unclaimed)).sum := by rw [h3]
      _ = S := Nat.mul_div_cancel S hT
  constructor
  · have := reconcileAux_sum ((batches.map (·.amount_unclaimed)).sum) S batches
      (S - (batches.map (fun b =>
        S * b.amount_unclaimed / (batches.map (·.amount_unclaimed)).sum)).sum)
      hpt (by omega)
    simp only [reconcile_batches]
    omega
  · have := reconcileAux_forall₂ ((batches.map (·.amount_unclaimed)).sum) S batches
      (S - (batches.map (fun b =>
        S * b.amount_unclaimed / (batches.map (·.amount_unclaimed)).sum)).sum)
      hpt
    exact this

/-- Witness for `C4_reconcile_batches_distribution`: a shortfall of 7 over
batches holding 10 and 5 unclaimed is deducted exactly (bases 4 and 2,
remainder 1 to the first batch). -/
theorem C4_reconcile_batches_distribution_witness :
    ((reconcile_batches [⟨1, false, 2, 10, 0⟩, ⟨2, false, 3, 5, 0⟩] 7).map
        (·.amount_unclaimed)).sum + 7
      = (([⟨1, false, 2, 10, 0⟩, ⟨2, false, 3, 5, 0⟩] : List Batch).map
          (·.amount_unclaimed)).sum :=
  (C4_reconcile_batches_distribution [⟨1, false, 2, 10, 0⟩, ⟨2, false, 3, 5, 0⟩] 7
    (by decide) (by decide)).1

/-! ### Reconciliation scan (C5) -/

/-- The distribution pass touches only `amount_unclaimed`, and only
downward. -/
theorem reconcileAux_shape (T S : Nat) :
    ∀ (bs : List Batch) (carry : Nat),
      List.Forall₂ (fun b b' => b'.id = b.id ∧ b'.reconciled = b.reconciled ∧
        b'.total_shares = b.total_shares ∧
        b'.est_unbond_end_time = b.est_unbond_end_time ∧
        b'.amount_unclaimed ≤ b.amount_unclaimed) bs (reconcileAux T S bs carry) := by
  intro bs
  induction bs with
  | nil => intro carry; simp [reconcileAux]
  | cons b bs ih =>
    intro carry
    simp only [reconcileAux]
    exact List.Forall₂.cons ⟨rfl, rfl, rfl, rfl, Nat.sub_le _ _⟩ (ih _)

/-- The modelled `reconcile_batches` touches only `amount_unclaimed`, and
only downward. -/
theorem reconcile_batches_shape (batches : List Batch) (S : Nat) :
    List.Forall₂ (fun b b' => b'.id = b.id ∧ b'.reconciled = b.reconciled ∧
      b'.total_shares = b.total_shares ∧
      b'.est_unbond_end_time = b.est_unbond_end_time ∧
      b'.amount_unclaimed ≤ b.amount_unclaimed) batches (reconcile_batches batches S) :=
  reconcileAux_shape _ _ batches _

/-- A relation that preserves ids carries a `Forall₂` to an id-list
equality. -/
theorem forall₂_map_ids {R : Batch → Batch → Prop}
    (hR : ∀ a b, R a b → b.id = a.id) :
    ∀ {l₁ l₂ : List Batch}, List.Forall₂ R l₁ l₂ →
      l₂.map (·.id) = l₁.map (·.id) := by
  intro l₁ l₂ h
  induction h with
  | nil => rfl
  | cons hab _ ih => simp [ih, hR _ _ hab]

/-- No batch of the store carries the id: the keyed load misses. -/
theorem find_batch_eq_none (l : List Batch) (id : Nat)
    (h : ∀ b ∈ l, b.id ≠ id) : find_batch l id = none :=
  List.find?_eq_none.mpr (by simpa using h)

/-- Under unique ids, the keyed load from the image of an id-preserving
`Forall₂` returns exactly the partner of the probed batch. -/
theorem find_partner {R : Batch → Batch → Prop}
    (hR : ∀ a b, R a b → b.id = a.id) :
    ∀ {l₁ l₂ : List Batch}, List.Forall₂ R l₁ l₂ →
      (l₁.map (·.id)).Nodup →
      ∀ b ∈ l₁, ∃ b', find_batch l₂ b.id = some b' ∧ R b b' := by
  intro l₁ l₂ h
  induction h with
  | nil => intro _ b hb; simp at hb
  | @cons a c l₁ l₂ hac htail ih =>
    intro hnd b hb
    rw [List.map_cons, List.nodup_cons] at hnd
    rcases List.mem_cons.mp hb with rfl | hbtail
    · refine ⟨c, ?_, hac⟩
      simp [find_batch, List.find?_cons, hR _ _ hac]
    · have hne : b.id ≠ a.id := fun he => hnd.1 (he ▸ List.mem_map_of_mem _ hbtail)
      obtain ⟨c', hc', hRc⟩ := ih hnd.2 b hbtail
      refine ⟨c', ?_, hRc⟩
      simp only [find_batch] at hc' ⊢
      rw [List.find?_cons_of_neg _ (by simp [hR _ _ hac, hne.symm])]
      exact hc'

/-- The save-back merge of `reconcile`: batches outside the considered set
come back untouched, considered batches come back as their partners in the
updated list. -/
theorem merge_forall₂ (store : List Batch) (now : Nat)
    (hN : (store.map (·.id)).Nodup)
    (Q : Batch → Batch → Prop) (updated : List Batch)
    (hQid : ∀ a b, Q a b → b.id = a.id)
    (hF : List.Forall₂ Q (store.filter (reconcilable now)) updated) :
    List.Forall₂ (fun b b' =>
      (reconcilable now b = false → b' = b) ∧
      (reconcilable now b = true → Q b b'))
      store (store.map (fun b => (find_batch updated b.id).getD b)) := by
  rw [List.forall₂_map_right_iff, List.forall₂_same]
  intro b hb
  by_cases hP : reconcilable now b = true
  · have hbf : b ∈ store.filter (reconcilable now) := List.mem_filter.mpr ⟨hb, hP⟩
    have hndf : ((store.filter (reconcilable now)).map (·.id)).Nodup :=
      (List.Sublist.map _ (List.filter_sublist store)).nodup hN
    obtain ⟨b', hfind, hQ⟩ := find_partner hQid hF hndf b hbf
    rw [hfind]
    exact ⟨fun hc => absurd (hc ▸ hP) Bool.false_ne_true, fun _ => hQ⟩
  · have hup_ids : updated.map (·.id) = (store.filter (reconcilable now)).map (·.id) :=
      forall₂_map_ids hQid hF
    have hnone : find_batch updated b.id = none := by
      apply find_batch_eq_none
      intro c hc hce
      have hcid : c.id ∈ (store.filter (reconcilable now)).map (·.id) := by
        rw [← hup_ids]
        exact List.mem_map_of_mem _ hc
      rw [List.mem_map] at hcid
      obtain ⟨c', hc', hc'e⟩ := hcid
      have hc'_mem : c' ∈ store := (List.mem_filter.mp hc').1
      have hc'_P : reconcilable now c' = true := (List.mem_filter.mp hc').2
      have : c' = b := List.inj_on_of_nodup_map hN hc'_mem hb (by rw [hc'e, hce])
      rw [this] at hc'_P
      exact hP hc'_P
    rw [hnone]
    exact ⟨fun _ => rfl, fun hc => absurd hc hP⟩

/-- C5: `reconcile` considers exactly the unreconciled batches whose unbond
end time lies strictly in the past — every other batch returns bit-for-bit
unchanged — compares their unclaimed total plus the unlocked native balance
against the actual balance, deducts only when actual falls short of that
expectation (when it does not, every considered batch keeps its
`amount_unclaimed`), and marks every considered batch `reconciled = true`
either way. -/
theorem C5_reconcile_scan (store : List Batch) (unlocked actual now : Nat)
    (hN : (store.map (·.id)).Nodup) :
    List.Forall₂ (fun b b' =>
      (reconcilable now b = false → b' = b) ∧
      (reconcilable now b = true →
        b'.id = b.id ∧ b'.reconciled = true ∧ b'.total_shares = b.total_shares ∧
        b'.est_unbond_end_time = b.est_unbond_end_time ∧
        b'.amount_unclaimed ≤ b.amount_unclaimed ∧
        (((store.filter (reconcilable now)).map (·.amount_unclaimed)).sum + unlocked
            ≤ actual →
          b'.amount_unclaimed = b.amount_unclaimed)))
      store (reconcile store unlocked actual now) := by
  simp only [reconcile]
  apply merge_forall₂ store now hN _ _ (fun a b h => h.1)
  by_cases hD : ((store.filter (reconcilable now)).map (·.amount_unclaimed)).sum
      + unlocked - actual = 0
  · rw [if_neg (by omega)]
    rw [List.forall₂_map_right_iff, List.forall₂_same]
    intro c _
    exact ⟨rfl, rfl, rfl, rfl, le_refl _, fun _ => rfl⟩
  · rw [if_pos (by omega)]
    rw [List.forall₂_map_right_iff]
    refine (reconcile_batches_shape (store.filter (reconcilable now)) _).imp ?_
    rintro a c ⟨e1, e2, e3, e4, e5⟩
    exact ⟨e1, rfl, e3, e4, e5, fun hle => absurd hle (by omega)⟩

/-- Witness for `C5_reconcile_scan`: a store with one due unreconciled batch
(shortfall 6 deducted, flag set), one already-reconciled batch and one not
yet due batch (both untouched). -/
theorem C5_reconcile_scan_witness :
    List.Forall₂ (fun b b' =>
      (reconcilable 50 b = false → b' = b) ∧
      (reconcilable 50 b = true →
        b'.id = b.id ∧ b'.reconciled = true ∧ b'.total_shares = b.total_shares ∧
        b'.est_unbond_end_time = b.est_unbond_end_time ∧
        b'.amount_unclaimed ≤ b.amount_unclaimed ∧
        (((([⟨1, false, 5, 10, 0⟩, ⟨2, true, 3, 4, 0⟩, ⟨3, false, 2, 6, 100⟩] :
              List Batch).filter (reconcilable 50)).map (·.amount_unclaimed)).sum + 0
            ≤ 4 →
          b'.amount_unclaimed = b.amount_unclaimed)))
      [⟨1, false, 5, 10, 0⟩, ⟨2, true, 3, 4, 0⟩, ⟨3, false, 2, 6, 100⟩]
      (reconcile [⟨1, false, 5, 10, 0⟩, ⟨2, true, 3, 4, 0⟩, ⟨3, false, 2, 6, 100⟩]
        0 4 50) :=
  C5_reconcile_scan [⟨1, false, 5, 10, 0⟩, ⟨2, true, 3, 4, 0⟩, ⟨3, false, 2, 6, 100⟩]
    0 4 50 (by decide)

/-! ### Destination selection (C9) -/

/-- `u128::abs_diff` is the deficit when the comparison says `Greater`. -/
theorem absDiff_of_gt {t a : Nat} (h : compare t a = .gt) : absDiff t a = t - a := by
  rw [Nat.compare_eq_gt] at h
  simp [absDiff, Nat.le_of_lt h]

/-- `ordVal` is bounded by the index of `Greater`. -/
theorem ordVal_le_two (o : Ordering) : ordVal o ≤ 2 := by
  cases o <;> simp [ordVal]

/-- An ordering with maximal index is `Greater`. -/
theorem ordVal_eq_gt {o : Ordering} (h : 2 ≤ ordVal o) : o = .gt := by
  cases o <;> simp [ordVal] at h ⊢

/-- The scan invariant holds for the initial incumbent. -/
theorem GoodBest_init (d : Cand) :
    GoodBest [d] (d.validator,
      (if compare d.target d.amount = .gt then d.target - d.amount else 0),
      compare d.target d.amount) := by
  refine ⟨⟨d, List.mem_singleton.mpr rfl, rfl, rfl, fun h => ?_⟩, ?_, ?_⟩
  · rw [if_pos h, absDiff_of_gt h]
  · rintro ⟨d', hd', hgt⟩
    rw [List.mem_singleton] at hd'
    subst hd'
    exact hgt
  · intro d' hd' hgt
    rw [List.mem_singleton] at hd'
    subst hd'
    rw [if_pos hgt, absDiff_of_gt hgt]

/-- One `better` step preserves the scan invariant. -/
theorem GoodBest_step (l : List Cand) (best : String × Nat × Ordering) (d : Cand)
    (h : GoodBest l best) : GoodBest (l ++ [d]) (better best d) := by
  obtain ⟨hrep, hgt, hmax⟩ := h
  unfold better
  by_cases hcond : ordVal best.2.2 < ordVal (compare d.target d.amount) ∨
      (compare d.target d.amount = .gt ∧ best.2.1 < absDiff d.target d.amount)
  · rw [if_pos hcond]
    refine ⟨⟨d, by simp, rfl, rfl, fun _ => rfl⟩, fun hex => ?_, ?_⟩
    · rcases hcond with hA | hB
      · rcases hex with ⟨d', hd', hgt'⟩
        rcases List.mem_append.mp hd' with hl | hone
        · have hbgt : best.2.2 = .gt := hgt ⟨d', hl, hgt'⟩
          rw [hbgt] at hA
          simp only [ordVal] at hA
          exact absurd hA
            (by have h9 := ordVal_le_two (compare d.target d.amount); simp only [ordVal] at h9; omega)
        · rw [List.mem_singleton] at hone
          subst hone
          exact hgt'
      · exact hB.1
    · intro d' hd' hgt'
      rcases List.mem_append.mp hd' with hl | hone
      · have h1 : absDiff d'.target d'.amount ≤ best.2.1 := hmax d' hl hgt'
        have hbgt : best.2.2 = .gt := hgt ⟨d', hl, hgt'⟩
        rcases hcond with hA | hB
        · rw [hbgt] at hA
          simp only [ordVal] at hA
          exact absurd hA
            (by have h9 := ordVal_le_two (compare d.target d.amount); simp only [ordVal] at h9; omega)
        · exact le_trans h1 (le_of_lt hB.2)
      · rw [List.mem_singleton] at hone
        subst hone
        rfl
  · rw [if_neg hcond]
    push_neg at hcond
    obtain ⟨hA, hB⟩ := hcond
    refine ⟨?_, fun hex => ?_, ?_⟩
    · obtain ⟨d', hd', e1, e2, e3⟩ := hrep
      exact ⟨d', List.mem_append_left _ hd', e1, e2, e3⟩
    · rcases hex with ⟨d', hd', hgt'⟩
      rcases List.mem_append.mp hd' with hl | hone
      · exact hgt ⟨d', hl, hgt'⟩
      · rw [List.mem_singleton] at hone
        subst hone
        exact ordVal_eq_gt (by rw [hgt'] at hA; simpa [ordVal] using hA)
    · intro d' hd' hgt'
      rcases List.mem_append.mp hd' with hl | hone
      · exact hmax d' hl hgt'
      · rw [List.mem_singleton] at hone
        subst hone
        exact hB hgt'

/-- The whole fold preserves the scan invariant. -/
theorem foldl_better_good :
    ∀ (ds l : List Cand) (best : String × Nat × Ordering),
      GoodBest l best → GoodBest (l ++ ds) (ds.foldl better best) := by
  intro ds
  induction ds with
  | nil => intro l best h; simpa using h
  | cons d ds ih =>
    intro l best h
    have h2 := ih (l ++ [d]) (better best d) (GoodBest_step l best d h)
    simpa [List.append_assoc] using h2

/-- On a nonempty candidate list the scan returns an incumbent satisfying
the invariant over the whole list. -/
theorem select_destination_good (cands : List Cand) (h : cands ≠ []) :
    ∃ sel, select_destination cands = some sel ∧ GoodBest cands sel := by
  obtain ⟨d, ds, rfl⟩ := List.exists_cons_of_ne_nil h
  refine ⟨_, rfl, ?_⟩
  have h2 := foldl_better_good ds [d] _ (GoodBest_init d)
  simpa using h2

/-- Every move the modelled rebalancing pass emits targets the scanned
destination. -/
theorem rebalance_moves_dst (dst : String) (minimum : Nat) :
    ∀ (l : List Cand) (remaining : Nat),
      ∀ rd ∈ rebalance_moves dst minimum l remaining, rd.dst = dst := by
  intro l
  induction l with
  | nil => intro r rd h; simp [rebalance_moves] at h
  | cons d l ih =>
    intro remaining rd h
    simp only [rebalance_moves] at h
    split_ifs at h with h1 h2
    · rcases List.mem_cons.mp h with rfl | hm
      · rfl
      · exact ih _ rd hm
    · exact ih _ rd h
    · exact ih _ rd h

/-- C9: with rewards to reinvest and a nonempty active set, `reinvest`
delegates the entire net-of-fee amount to the single validator produced by
the running-best scan; the scan's result is one of the candidates, carries
its `target.cmp(current)` comparison and (when positive) its deficit, and
whenever any candidate has a positive deficit the selected one has the
largest such deficit (first encountered wins ties, comparison ordering broken
first); the modelled rebalancing computation (spec §4.3, same target
function) also directs every move at that same single destination. -/
theorem C9_reinvest_selection (va : List String) (stakes powers : String → Nat)
    (tm prev current fee m : Nat) (denom : String)
    (hva : va ≠ []) (hrw : prev < current) :
    (select_destination (reinvest_cands va stakes powers tm denom)).isSome = true ∧
    ∀ v diff cmp,
      select_destination (reinvest_cands va stakes powers tm denom)
          = some (v, diff, cmp) →
      (reinvest va stakes powers tm prev current fee denom =
        .ok (⟨v, (current - prev) -
            (if fee = 0 then 0 else fee * (current - prev) / 1000000000000000000),
            denom⟩,
          if fee = 0 then 0 else fee * (current - prev) / 1000000000000000000)) ∧
      (∃ d ∈ reinvest_cands va stakes powers tm denom,
        v = d.validator ∧ cmp = compare d.target d.amount ∧
        (compare d.target d.amount = .gt → diff = d.target - d.amount)) ∧
      ((∃ d ∈ reinvest_cands va stakes powers tm denom, d.amount < d.target) →
        cmp = .gt ∧
        ∀ d ∈ reinvest_cands va stakes powers tm denom,
          d.amount < d.target → d.target - d.amount ≤ diff) ∧
      (∀ rd ∈ compute_redelegations_for_rebalancing
          (reinvest_cands va stakes powers tm denom) m, rd.dst = v) := by
  have hcne : reinvest_cands va stakes powers tm denom ≠ [] := by
    obtain ⟨v, rest, rfl⟩ := List.exists_cons_of_ne_nil hva
    simp [reinvest_cands, query_delegations]
  obtain ⟨sel, hsel, hgood⟩ := select_destination_good _ hcne
  constructor
  · rw [hsel]; rfl
  · intro v diff cmp hsel'
    rw [hsel] at hsel'
    rw [Option.some.injEq] at hsel'
    subst hsel'
    obtain ⟨hrep, hgt, hmax⟩ := hgood
    refine ⟨?_, ?_, ?_, ?_⟩
    · simp only [reinvest]
      rw [if_neg (by omega), hsel]
    · obtain ⟨d, hd, e1, e2, e3⟩ := hrep
      refine ⟨d, hd, e1, e2, fun h => ?_⟩
      have e3' : diff = absDiff d.target d.amount := e3 h
      rw [e3', absDiff_of_gt h]
    · intro hex
      obtain ⟨d, hd, hlt⟩ := hex
      have hcmp : compare d.target d.amount = .gt := Nat.compare_eq_gt.mpr hlt
      refine ⟨hgt ⟨d, hd, hcmp⟩, ?_⟩
      intro d' hd' hlt'
      have hcmp' : compare d'.target d'.amount = .gt := Nat.compare_eq_gt.mpr hlt'
      have h2 : absDiff d'.target d'.amount ≤ diff := hmax d' hd' hcmp'
      rwa [absDiff_of_gt hcmp'] at h2
    · intro rd hrd
      simp only [compute_redelegations_for_rebalancing, hsel] at hrd
      split_ifs at hrd with hc
      · exact rebalance_moves_dst _ _ _ _ rd hrd
      · simp at hrd

/-- Witness for `C9_reinvest_selection`: mining power concentrated on the
second validator directs the whole reward there. -/
theorem C9_reinvest_selection_witness :
    reinvest ["v1", "v2"] (fun v => if v = "v1" then 10 else 0)
      (fun v => if v = "v2" then 1 else 0) 1 0 100 0 "uluna" =
      .ok (⟨"v2", 100, "uluna"⟩, 0) :=
  ((C9_reinvest_selection ["v1", "v2"] (fun v => if v = "v1" then 10 else 0)
      (fun v => if v = "v2" then 1 else 0) 1 0 100 0 0 "uluna"
      (by decide) (by decide)).2 "v2" 10 .gt (by decide)).1

/-! ### Withdrawal characterization (C3) -/

/-- Updating the batch stored under one id leaves every other keyed load
unchanged. -/
theorem find_batch_map_update_ne (st : List Batch) (rid : Nat) (b' : Batch)
    (hb' : b'.id = rid) (j : Nat) (h : j ≠ rid) :
    find_batch (st.map (fun x => if x.id = rid then b' else x)) j
      = find_batch st j := by
  induction st with
  | nil => rfl
  | cons x st ih =>
    simp only [List.map_cons]
    unfold find_batch at ih ⊢
    by_cases hx : x.id = rid
    · rw [if_pos hx]
      rw [List.find?_cons_of_neg _
          (by simp only [hb', decide_eq_true_eq]; exact Ne.symm h),
        List.find?_cons_of_neg _
          (by simp only [hx, decide_eq_true_eq]; exact Ne.symm h)]
      exact ih
    · rw [if_neg hx]
      by_cases hpx : x.id = j
      · rw [List.find?_cons_of_pos _ (by simpa using hpx),
          List.find?_cons_of_pos _ (by simpa using hpx)]
      · rw [List.find?_cons_of_neg _ (by simpa using hpx),
          List.find?_cons_of_neg _ (by simpa using hpx)]
        exact ih

/-- Deleting the batch stored under one id leaves every other keyed load
unchanged. -/
theorem find_batch_filter_ne (st : List Batch) (rid j : Nat) (h : j ≠ rid) :
    find_batch (st.filter (fun x => x.id ≠ rid)) j = find_batch st j := by
  induction st with
  | nil => rfl
  | cons x st ih =>
    simp only [List.filter_cons]
    unfold find_batch at ih ⊢
    by_cases hx : x.id = rid
    · rw [if_neg (by simp [hx])]
      rw [List.find?_cons_of_neg _
          (by simp only [hx, decide_eq_true_eq]; exact Ne.symm h)]
      exact ih
    · rw [if_pos (by simp [hx])]
      by_cases hpx : x.id = j
      · rw [List.find?_cons_of_pos _ (by simpa using hpx),
          List.find?_cons_of_pos _ (by simpa using hpx)]
      · rw [List.find?_cons_of_neg _ (by simpa using hpx),
          List.find?_cons_of_neg _ (by simpa using hpx)]
        exact ih

/-- Eligibility depends on the store only through the request's batch. -/
theorem request_eligible_agree (st st' : List Batch) (now : Nat)
    (x : UnbondRequest) (h : find_batch st' x.id = find_batch st x.id) :
    request_eligible st' now x = request_eligible st now x := by
  unfold request_eligible
  rw [h]

/-- The refund depends on the store only through the request's batch. -/
theorem eligible_refund_agree (st st' : List Batch) (now : Nat)
    (x : UnbondRequest) (h : find_batch st' x.id = find_batch st x.id) :
    eligible_refund st' now x = eligible_refund st now x := by
  unfold eligible_refund
  rw [h]

/-- Pointwise-equal eligibility gives the same any-scan over requests. -/
theorem any_elig_agree (st st' : List Batch) (now : Nat) (xid : Nat) :
    ∀ (rs : List UnbondRequest),
      (∀ r' ∈ rs, request_eligible st' now r' = request_eligible st now r') →
      rs.any (fun r' => r'.id = xid && request_eligible st' now r') =
        rs.any (fun r' => r'.id = xid && request_eligible st now r') := by
  intro rs
  induction rs with
  | nil => intro _; rfl
  | cons r' rs ih =>
    intro h
    simp only [List.any_cons]
    rw [h r' (List.mem_cons_self _ _), ih (fun x hx => h x (List.mem_cons_of_mem _ hx))]

/-- Processing one eligible request first and then the rest against the
shrunk store folds into the one-pass closed form. -/
theorem apply_withdrawals_step (r : UnbondRequest) (rs : List UnbondRequest)
    (now : Nat) (st : List Batch) (b : Batch)
    (hndst : (st.map (·.id)).Nodup)
    (hrid : r.id ∉ rs.map (·.id))
    (hfb : find_batch st r.id = some b)
    (hel : (b.reconciled && decide (b.est_unbond_end_time < now)) = true) :
    apply_withdrawals (r :: rs) now st =
      apply_withdrawals rs now
        (if b.total_shares - r.shares = 0 then st.filter (fun x => x.id ≠ r.id)
         else st.map (fun x => if x.id = r.id then
            { b with
              total_shares := b.total_shares - r.shares
              amount_unclaimed := b.amount_unclaimed - refund_amount b r } else x)) := by
  have hbmem : b ∈ st := List.mem_of_find?_eq_some hfb
  have hbid : b.id = r.id := by simpa using List.find?_some hfb
  by_cases hz : b.total_shares - r.shares = 0
  · rw [if_pos hz]
    unfold apply_withdrawals
    rw [List.filterMap_filter]
    apply List.filterMap_congr
    intro x hx
    by_cases hxid : x.id = r.id
    · have hxb : x = b := List.inj_on_of_nodup_map hndst hx hbmem (by rw [hxid, hbid])
      subst hxb
      rw [List.find?_cons_of_pos _ (by simpa using hxid.symm)]
      rw [if_neg (by simpa using hxid)]
      simp [hel, hz]
    · rw [List.find?_cons_of_neg _ (by simpa using fun he : r.id = x.id => hxid he.symm)]
      rw [if_pos (by simpa using hxid)]
  · rw [if_neg hz]
    unfold apply_withdrawals
    rw [List.filterMap_map]
    apply List.filterMap_congr
    intro x hx
    simp only [Function.comp_apply]
    by_cases hxid : x.id = r.id
    · have hxb : x = b := List.inj_on_of_nodup_map hndst hx hbmem (by rw [hxid, hbid])
      subst hxb
      rw [List.find?_cons_of_pos _ (by simpa using hxid.symm)]
      rw [if_pos hxid]
      have hfind : List.find? (fun q => q.id =
          ({ x with
              total_shares := x.total_shares - r.shares
              amount_unclaimed := x.amount_unclaimed - refund_amount x r } : Batch).id) rs
          = none := by
        apply List.find?_eq_none.mpr
        intro q hq
        simp only [decide_eq_true_eq]
        intro he
        exact hrid (by rw [← hxid, ← he]; exact List.mem_map_of_mem _ hq)
      simp [hel, hz, hfind]
    · rw [List.find?_cons_of_neg _ (by simpa using fun he : r.id = x.id => hxid he.symm)]
      rw [if_neg hxid]

/-- Deleting the processed request first and filtering the rest against the
shrunk store folds into the one-pass removal predicate. -/
theorem removed_key_step (r : UnbondRequest) (rs : List UnbondRequest)
    (now : Nat) (st st' : List Batch) (user : String) (q : List UnbondRequest)
    (hagree : ∀ r' ∈ rs, request_eligible st' now r' = request_eligible st now r')
    (helig : request_eligible st now r = true) :
    (q.filter (fun x => ¬(x.id = r.id ∧ x.user = user))).filter
        (fun x => !removed_key st' now rs user x)
      = q.filter (fun x => !removed_key st now (r :: rs) user x) := by
  rw [List.filter_filter]
  apply List.filter_congr
  intro x _
  have hany := any_elig_agree st st' now x.id rs hagree
  simp only [removed_key, hany, List.any_cons]
  by_cases hu : x.user = user
  · by_cases hid : x.id = r.id
    · simp [hu, hid, helig]
    · simp [hu, hid, Ne.symm hid]
  · simp [hu]

/-- The loop of `withdraw_unbonded` equals its one-pass closed form: the
final batch store is `apply_withdrawals`, the final request store drops
exactly the processed eligible requests, and the accumulated refund is the
sum of the per-request pro-rata refunds. -/
theorem withdraw_loop_spec (user : String) (now : Nat) :
    ∀ (rs : List UnbondRequest) (st : List Batch) (q : List UnbondRequest),
      (rs.map (·.id)).Nodup →
      (st.map (·.id)).Nodup →
      withdraw_loop user now rs st q =
        (apply_withdrawals rs now st,
         q.filter (fun x => !removed_key st now rs user x),
         (rs.map (eligible_refund st now)).sum) := by
  intro rs
  induction rs with
  | nil =>
    intro st q _ _
    simp [withdraw_loop, apply_withdrawals, removed_key]
  | cons r rs ih =>
    intro st q hndr hndst
    rw [List.map_cons, List.nodup_cons] at hndr
    obtain ⟨hrid, hndr'⟩ := hndr
    cases hfb : find_batch st r.id with
    | none =>
      have helig : request_eligible st now r = false := by
        unfold request_eligible
        rw [hfb]
      have hnoid : ∀ x ∈ st, ¬ x.id = r.id := by
        intro x hx
        simpa using List.find?_eq_none.mp hfb x hx
      have hA : apply_withdrawals (r :: rs) now st = apply_withdrawals rs now st := by
        unfold apply_withdrawals
        apply List.filterMap_congr
        intro x hx
        rw [List.find?_cons_of_neg _
          (by simpa using fun he : r.id = x.id => hnoid x hx he.symm)]
      have hB : q.filter (fun x => !removed_key st now (r :: rs) user x)
          = q.filter (fun x => !removed_key st now rs user x) := by
        apply List.filter_congr
        intro x _
        simp [removed_key, List.any_cons, helig]
      have hC : eligible_refund st now r = 0 := by
        unfold eligible_refund
        rw [hfb]
      simp only [withdraw_loop, hfb]
      rw [ih st q hndr' hndst, hA, hB, List.map_cons, List.sum_cons, hC, Nat.zero_add]
    | some b =>
      have hbmem : b ∈ st := List.mem_of_find?_eq_some hfb
      have hbid : b.id = r.id := by simpa using List.find?_some hfb
      by_cases hel : (b.reconciled && decide (b.est_unbond_end_time < now)) = true
      · -- eligible: the head request is processed
        have helig : request_eligible st now r = true := by
          unfold request_eligible
          rw [hfb]
          exact hel
        have hb'id : ({ b with
            total_shares := b.total_shares - r.shares
            amount_unclaimed := b.amount_unclaimed - refund_amount b r } : Batch).id
            = r.id := hbid
        have hndst' : (((if b.total_shares - r.shares = 0 then
              st.filter (fun x => x.id ≠ r.id)
            else st.map (fun x => if x.id = r.id then
              { b with
                total_shares := b.total_shares - r.shares
                amount_unclaimed := b.amount_unclaimed - refund_amount b r }
              else x))).map (·.id)).Nodup := by
          split_ifs
          · exact (List.Sublist.map _ (List.filter_sublist st)).nodup hndst
          · have hids : (st.map (fun x => if x.id = r.id then
                { b with
                  total_shares := b.total_shares - r.shares
                  amount_unclaimed := b.amount_unclaimed - refund_amount b r }
                else x)).map (·.id) = st.map (·.id) := by
              rw [List.map_map]
              apply List.map_congr_left
              intro x _
              by_cases hxid : x.id = r.id <;> simp [hxid, hbid]
            rw [hids]
            exact hndst
        have hagree : ∀ r' ∈ rs,
            find_batch (if b.total_shares - r.shares = 0 then
                st.filter (fun x => x.id ≠ r.id)
              else st.map (fun x => if x.id = r.id then
                { b with
                  total_shares := b.total_shares - r.shares
                  amount_unclaimed := b.amount_unclaimed - refund_amount b r }
                else x)) r'.id = find_batch st r'.id := by
          intro r' hr'
          have hne : r'.id ≠ r.id := fun he => hrid (he ▸ List.mem_map_of_mem _ hr')
          split_ifs
          · exact find_batch_filter_ne st r.id r'.id hne
          · exact find_batch_map_update_ne st r.id _ hb'id r'.id hne
        have hsum : (rs.map (eligible_refund (if b.total_shares - r.shares = 0 then
              st.filter (fun x => x.id ≠ r.id)
            else st.map (fun x => if x.id = r.id then
              { b with
                total_shares := b.total_shares - r.shares
                amount_unclaimed := b.amount_unclaimed - refund_amount b r }
              else x)) now)).sum = (rs.map (eligible_refund st now)).sum := by
          apply congrArg
          apply List.map_congr_left
          intro r' hr'
          exact eligible_refund_agree st _ now r' (hagree r' hr')
        have hhead : eligible_refund st now r = refund_amount b r := by
          simp only [eligible_refund, hfb]
          rw [if_pos hel]
        simp only [withdraw_loop, hfb]
        rw [if_pos hel]
        rw [ih _ _ hndr' hndst']
        rw [apply_withdrawals_step r rs now st b hndst hrid hfb hel]
        rw [removed_key_step r rs now st _ user q
          (fun r' hr' => request_eligible_agree st _ now r' (hagree r' hr')) helig]
        rw [hsum, List.map_cons, List.sum_cons, hhead]
      · -- ineligible: the head request is skipped
        have helig : request_eligible st now r = false := by
          unfold request_eligible
          rw [hfb]
          simpa using hel
        have hA : apply_withdrawals (r :: rs) now st = apply_withdrawals rs now st := by
          unfold apply_withdrawals
          apply List.filterMap_congr
          intro x hx
          by_cases hxid : x.id = r.id
          · have hxb : x = b := List.inj_on_of_nodup_map hndst hx hbmem (by rw [hxid, hbid])
            subst hxb
            rw [List.find?_cons_of_pos _ (by simpa using hxid.symm)]
            have hfind : List.find? (fun q => q.id = x.id) rs = none := by
              apply List.find?_eq_none.mpr
              intro q hq
              simp only [decide_eq_true_eq]
              intro he
              exact hrid (by rw [← hxid, ← he]; exact List.mem_map_of_mem _ hq)
            simp [hel, hfind]
          · rw [List.find?_cons_of_neg _
              (by simpa using fun he : r.id = x.id => hxid he.symm)]
        have hB : q.filter (fun x => !removed_key st now (r :: rs) user x)
            = q.filter (fun x => !removed_key st now rs user x) := by
          apply List.filter_congr
          intro x _
          simp [removed_key, List.any_cons, helig]
        have hC : eligible_refund st now r = 0 := by
          simp only [eligible_refund, hfb]
          rw [if_neg hel]
        simp only [withdraw_loop, hfb]
        rw [if_neg hel]
        rw [ih st q hndr' hndst, hA, hB, List.map_cons, List.sum_cons, hC, Nat.zero_add]

/-- C3: counterexample to the claim as stated.  The single stored request is
eligible (its batch exists, is reconciled, and matured before `now = 10`),
yet `withdraw_unbonded` fails with the zero-withdrawable error instead of
issuing a bank transfer, because the batch's `amount_unclaimed` is zero and
the pro-rata refund truncates to zero. -/
theorem C3_withdraw_unbonded_counterexample :
    request_eligible [⟨1, true, 5, 0, 0⟩] 10 ⟨1, "user1", 5⟩ = true ∧
    withdraw_unbonded ⟨⟨2, 0, 0⟩, [⟨1, true, 5, 0, 0⟩], [⟨1, "user1", 5⟩]⟩ "user1" 10
      = .error "withdrawable amount is zero" :=
  ⟨rfl, rfl⟩

/-- C3 (amended): `withdraw_unbonded` processes exactly the user's requests
whose batch exists, is reconciled and matured strictly before `now`,
refunding `floor(amount_unclaimed * shares / total_shares)` for each,
shrinking the batch by the shares and the refund (deleting it at zero
shares) and deleting the request; it fails with the zero-withdrawable error
exactly when the accumulated refund is zero — in particular when no eligible
request existed, but also when eligible requests exist whose refunds all
truncate to zero — and otherwise issues one bank transfer of the
accumulated total. -/
theorem C3_withdraw_unbonded_characterization (s : UState) (user : String)
    (now : Nat)
    (hndb : (s.previous.map (·.id)).Nodup)
    (hndr : ((s.requests.filter (fun r => r.user = user)).map (·.id)).Nodup) :
    (((s.requests.filter (fun r => r.user = user)).map
        (eligible_refund s.previous now)).sum = 0 →
      withdraw_unbonded s user now = .error "withdrawable amount is zero") ∧
    (((s.requests.filter (fun r => r.user = user)).map
        (eligible_refund s.previous now)).sum ≠ 0 →
      withdraw_unbonded s user now = .ok
        ({ s with
            previous := apply_withdrawals
              (s.requests.filter (fun r => r.user = user)) now s.previous
            requests := s.requests.filter (fun x =>
              !removed_key s.previous now
                (s.requests.filter (fun r => r.user = user)) user x) },
          ((s.requests.filter (fun r => r.user = user)).map
            (eligible_refund s.previous now)).sum)) := by
  simp only [withdraw_unbonded]
  rw [withdraw_loop_spec user now (s.requests.filter (fun r => r.user = user))
    s.previous s.requests hndr hndb]
  dsimp only
  constructor
  · intro hz
    rw [if_pos hz]
  · intro hnz
    rw [if_neg hnz]

/-- Witness for `C3_withdraw_unbonded_characterization`: one eligible
request redeeming the whole batch deletes both and transfers the full
unclaimed amount. -/
theorem C3_withdraw_unbonded_characterization_witness :
    withdraw_unbonded ⟨⟨2, 0, 0⟩, [⟨1, true, 5, 10, 0⟩], [⟨1, "u", 5⟩]⟩ "u" 10
      = .ok (⟨⟨2, 0, 0⟩, [], []⟩, 10) := by
  have h := (C3_withdraw_unbonded_characterization
    ⟨⟨2, 0, 0⟩, [⟨1, true, 5, 10, 0⟩], [⟨1, "u", 5⟩]⟩ "u" 10
    (by decide) (by decide)).2 (by decide)
  rw [h]
  rfl

end Steak
